import Mathlib

/-!
# Bit buffers: `common/utils/itti_analyzer/libbuffers/buffers.c`

A shallow embedding of the buffer accessors and of the properties the
specification states about them.

## Conventions of the embedding

* A byte is a `Fin 256`; arithmetic on bytes is done on their `Nat` value.
* An object in memory (the storage of a buffer, a destination array, a source
  array) is the list of its bytes.  A pointer is an `Option`: `none` is `NULL`.
* `uint32_t` values are naturals below `2 ^ 32`; every `uint32_t` operation of
  the source that can wrap is followed by `% 2 ^ 32`.  `int` values are `Int`;
  an `int` that the source converts to `uint32_t` is taken `% 2 ^ 32`, an `int`
  converted to `size_t` is taken `% 2 ^ 64`.
* The functions follow the control flow of the source and are total.  A read
  outside the object a pointer designates is undefined in C: the model records
  the storage range handed to `memcpy` (field `reads`) and gives the data
  obtained by such a read as `none` (indeterminate).  The loop of
  `buffer_fetch_bits` indexes the storage without any test: when it reads a
  byte the storage does not have, the call has no return code (`none`).
* A stream (`FILE *`) is the list of the characters written to it so far; a
  `NULL` stream is `none`.
* Memory a function allocates and does not initialise (a local variable, a
  fresh `buffer_t`) has indeterminate content; that content is a parameter
  named `uninit`.
* Diagnostics (`g_warning`) are not part of the state and are left out.
-/

namespace Buffers

/-- A storage byte, `uint8_t` in the source. -/
abbrev uint8_t := Fin 256

/-- Modelled from the spec: `buffer_t` is declared in `buffers.h`, which is not
among the sources.  The spec lists `storage` (the field `data` of the code),
`length_bytes` (`size_bytes`) and `cursor` (`buffer_current`).  `data` is a
pointer to the storage object (`none`: `NULL`), `buffer_current` points at a
byte of the storage and is kept as the index of that byte (`none`: `NULL`). -/
structure buffer_t where
  size_bytes : Nat
  data : Option (List uint8_t)
  buffer_current : Option Nat
deriving DecidableEq

/-- The expression `buffer->data[k]`: the byte at index `k` of the storage,
`none` when there is no such byte. -/
def load (buffer : buffer_t) (k : Nat) : Option uint8_t :=
  match buffer.data with
  | none => none
  | some s => s[k]?

/-- What `buffer_fetch_bits` hands back: the return code (`none`: the call
reads a byte outside the storage, which is undefined, and returns no code) and
the content of `*value` afterwards (`none`: there is no `value` object, or the
bits were read outside the storage). -/
structure fetch_bits_result where
  rc : Option Int
  value : Option Nat
deriving DecidableEq

/-- The variable `temp` of `buffer_fetch_bits` after the first `i` rounds of
its loop (rounds `0 .. i - 1`).  Round `i` does
`temp |= ((buffer->data[(offset + i) / 8] >> ((offset + i) % 8)) & 1) << i`
where `offset + i` is a `uint32_t` sum. -/
def fetch_bits_temp (buffer : buffer_t) (offset : Nat) : Nat → Option Nat
  | 0 => some 0
  | i + 1 =>
    match fetch_bits_temp buffer offset i, load buffer ((offset + i) % 2 ^ 32 / 8) with
    | some temp, some byte =>
      some ((temp ||| (((byte.val >>> ((offset + i) % 2 ^ 32 % 8)) &&& 1) <<< i)) % 2 ^ 32)
    | _, _ => none

/-- The function `buffer_fetch_bits(buffer, offset, nbits, value)`.  The codes
`RC_OK` and `RC_BAD_PARAM` come from `rc.h`, which is not among the sources, and
are parameters.  The loop runs for `i = 0 .. nbits - 1`, no round at all when
`nbits <= 0`; it reads `buffer->data` unchecked, so a round that addresses a
byte the storage does not have (no storage at all, or an index behind its last
byte) leaves the call without a result. -/
def buffer_fetch_bits (RC_OK RC_BAD_PARAM : Int) (buffer : Option buffer_t) (offset : Nat)
    (nbits : Int) (value : Option Nat) : fetch_bits_result :=
  match buffer, value with
  | some b, some _ =>
    if nbits > 32 then { rc := some RC_BAD_PARAM, value := value }
    else
      match fetch_bits_temp b offset nbits.toNat with
      | some temp => { rc := some RC_OK, value := some temp }
      | none => { rc := none, value := none }
  | _, _ => { rc := some RC_BAD_PARAM, value := value }

/-- Bit `p % 8`, counted from the least significant bit, of storage byte
`p / 8`; `false` where the storage has no such byte. -/
def storage_bit (s : List uint8_t) (p : Nat) : Bool :=
  match s[p / 8]? with
  | some byte => byte.val.testBit (p % 8)
  | none => false

/-! ### Integer conversions and byte images -/

/-- An `int` converted to `uint32_t`. -/
def to_uint32 (n : Int) : Nat := (n % 2 ^ 32).toNat

/-- An `int` converted to `size_t` (64 bits wide). -/
def to_size_t (n : Int) : Nat := (n % 2 ^ 64).toNat

/-- Byte order of the host: the getters copy raw bytes into an integer
variable, so the value they return is read in this order. -/
inductive byte_order where
  | little
  | big
deriving DecidableEq

/-- Value of a byte image whose first byte is the least significant. -/
def from_little : List uint8_t → Nat
  | [] => 0
  | byte :: rest => byte.val + 256 * from_little rest

/-- The `size` bytes of `v`, least significant first. -/
def to_little : Nat → Nat → List uint8_t
  | 0, _ => []
  | size + 1, v => ⟨v % 256, Nat.mod_lt v (by decide)⟩ :: to_little size (v / 256)

/-- The unsigned integer whose object representation on the host is `bytes`. -/
def from_bytes (host : byte_order) (bytes : List uint8_t) : Nat :=
  match host with
  | .little => from_little bytes
  | .big => from_little bytes.reverse

/-- The object representation on the host of a `size`-byte unsigned integer
holding `v`. -/
def to_bytes (host : byte_order) (size v : Nat) : List uint8_t :=
  match host with
  | .little => to_little size v
  | .big => (to_little size v).reverse

/-! ### Fixed-width fetch -/

/-- The call `memcpy(dst, &src[first], count)`: the destination afterwards.
`none` (indeterminate) when the bytes `first .. first + count - 1` are not all
in the source object or the destination has fewer than `count` bytes. -/
def memcpy (dst : List uint8_t) (src : Option (List uint8_t)) (first count : Nat) :
    Option (List uint8_t) :=
  match src with
  | none => none
  | some s =>
    if first + count ≤ s.length ∧ count ≤ dst.length then
      some ((s.drop first).take count ++ dst.drop count)
    else none

/-- What `buffer_fetch` leaves behind: the return code, the buffer, the
destination object (`none`: no destination, or indeterminate), and the storage
range handed to `memcpy` as `(first index, byte count)` (`none`: the storage
is not read). -/
structure fetch_result where
  rc : Int
  buffer : Option buffer_t
  value : Option (List uint8_t)
  reads : Option (Nat × Nat)
deriving DecidableEq

/-- The function `buffer_fetch(buffer, offset, size, value)`.  In the bound
test `size` is converted to `uint32_t` and the sum is a `uint32_t` sum. -/
def buffer_fetch (buffer : Option buffer_t) (offset : Nat) (size : Int)
    (value : Option (List uint8_t)) : fetch_result :=
  match buffer, value with
  | some b, some dst =>
    if size ≤ 0 then { rc := -1, buffer := buffer, value := value, reads := none }
    else if b.size_bytes < ((offset >>> 3) + to_uint32 size) % 2 ^ 32 then
      { rc := -1, buffer := buffer, value := value, reads := none }
    else
      { rc := 0
        buffer := some { b with
          buffer_current := some (((offset >>> 3) + to_uint32 size) % 2 ^ 32) }
        value := memcpy dst b.data (offset >>> 3) (to_size_t size)
        reads := some (offset >>> 3, to_size_t size) }
  | _, _ => { rc := -1, buffer := buffer, value := value, reads := none }

/-- The function `buffer_get_uint8_t(buffer, offset)`: the value returned
(`none`: indeterminate) and the buffer afterwards.  `uninit` is the
indeterminate content of the local variable `value` before the fetch. -/
def buffer_get_uint8_t (host : byte_order) (uninit : Nat) (buffer : Option buffer_t)
    (offset : Nat) : Option Nat × Option buffer_t :=
  let r := buffer_fetch buffer offset 1 (some (to_bytes host 1 uninit))
  (r.value.map (from_bytes host), r.buffer)

/-- The function `buffer_get_uint16_t(buffer, offset)`, as `buffer_get_uint8_t`. -/
def buffer_get_uint16_t (host : byte_order) (uninit : Nat) (buffer : Option buffer_t)
    (offset : Nat) : Option Nat × Option buffer_t :=
  let r := buffer_fetch buffer offset 2 (some (to_bytes host 2 uninit))
  (r.value.map (from_bytes host), r.buffer)

/-- The function `buffer_get_uint32_t(buffer, offset)`, as `buffer_get_uint8_t`. -/
def buffer_get_uint32_t (host : byte_order) (uninit : Nat) (buffer : Option buffer_t)
    (offset : Nat) : Option Nat × Option buffer_t :=
  let r := buffer_fetch buffer offset 4 (some (to_bytes host 4 uninit))
  (r.value.map (from_bytes host), r.buffer)

/-- The function `buffer_get_uint64_t(buffer, offset)`, as `buffer_get_uint8_t`. -/
def buffer_get_uint64_t (host : byte_order) (uninit : Nat) (buffer : Option buffer_t)
    (offset : Nat) : Option Nat × Option buffer_t :=
  let r := buffer_fetch buffer offset 8 (some (to_bytes host 8 uninit))
  (r.value.map (from_bytes host), r.buffer)

/-! ### Byte-range fetch -/

/-- What `buffer_fetch_nbytes` leaves behind: the return code, the destination
array (`none`: indeterminate) and the storage range handed to `memcpy`. -/
structure fetch_nbytes_result where
  rc : Int
  value : Option (List uint8_t)
  reads : Option (Nat × Nat)
deriving DecidableEq

/-- The function `buffer_fetch_nbytes(buffer, offset, n_bytes, value)`.  The
source dereferences `buffer` and `value` without a test, so both are objects
here.  `n_bytes` is an `int`: it is converted to `uint32_t` in the bound test
and to `size_t` as the count of `memcpy`. -/
def buffer_fetch_nbytes (buffer : buffer_t) (offset : Nat) (n_bytes : Int)
    (value : List uint8_t) : fetch_nbytes_result :=
  if buffer.size_bytes < ((offset >>> 3) + to_uint32 n_bytes) % 2 ^ 32 then
    { rc := -1, value := some value, reads := none }
  else
    { rc := 0
      value := memcpy value buffer.data (offset >>> 3) (to_size_t n_bytes)
      reads := some (offset >>> 3, to_size_t n_bytes) }

/-- The storage indices of a recorded range `(first, count)` are all below
`bound`. -/
def reads_below (reads : Option (Nat × Nat)) (bound : Nat) : Prop :=
  ∀ first count, reads = some (first, count) → ∀ k, first ≤ k → k < first + count → k < bound

/-! ### Bounds check -/

/-- The function `buffer_has_enouch_data(buffer, offset, to_get)`; the sum
`offset + to_get` is a `uint32_t` sum. -/
def buffer_has_enouch_data (buffer : Option buffer_t) (offset to_get : Nat) : Int :=
  match buffer with
  | none => -1
  | some b => if b.size_bytes ≥ (offset + to_get) % 2 ^ 32 / 8 then 0 else -1

/-! ### Append -/

/-- A heap block of `n` bytes obtained by `realloc(old, n)`: it keeps the first
bytes of `old`; the bytes it does not inherit are indeterminate (`none`). -/
def realloc (old : List uint8_t) (n : Nat) : List (Option uint8_t) :=
  (old.take n).map some ++ List.replicate (n - old.length) none

/-- A heap block of `n` bytes obtained by `malloc(n)`: all bytes indeterminate. -/
def malloc (n : Nat) : List (Option uint8_t) :=
  List.replicate n none

/-- The call `memcpy(&block[pos], src, count)` on a heap block: the block
afterwards, `none` when the copy leaves the block or the source array. -/
def memcpy_into (block : List (Option uint8_t)) (pos : Nat) (src : List uint8_t)
    (count : Nat) : Option (List (Option uint8_t)) :=
  if pos + count ≤ block.length ∧ count ≤ src.length then
    some (block.take pos ++ (src.take count).map some ++ block.drop (pos + count))
  else none

/-- The bytes of a block all of whose bytes are determined. -/
def determined : List (Option uint8_t) → Option (List uint8_t)
  | [] => some []
  | none :: _ => none
  | some byte :: rest => (determined rest).map (fun bytes => byte :: bytes)

/-- The function `buffer_append_data(buffer, data, length)`: the return code
and the buffer afterwards.  The buffer afterwards is `none` when the pointer
`buffer` is `NULL`, and when the new storage is not a determined sequence of
bytes (a copy left its block or the array `data`, or the block keeps bytes
never written).  The size given to `realloc` and the new `size_bytes` are
`uint32_t` sums.  Allocation is taken to succeed. -/
def buffer_append_data (buffer : Option buffer_t) (data : Option (List uint8_t))
    (length : Nat) : Int × Option buffer_t :=
  match buffer with
  | none => (-1, none)
  | some b =>
    match data with
    | none => (0, some b)
    | some src =>
      if length > 0 then
        match b.data with
        | none =>
          (0, ((memcpy_into (malloc length) 0 src length).bind determined).map fun bytes =>
            { size_bytes := length, data := some bytes, buffer_current := some 0 })
        | some old =>
          (0, ((memcpy_into (realloc old ((b.size_bytes + length) % 2 ^ 32))
                  b.size_bytes src length).bind determined).map fun bytes =>
            { size_bytes := (b.size_bytes + length) % 2 ^ 32
              data := some bytes
              buffer_current := some 0 })
      else (0, some b)

/-! ### Construction -/

/-- The function `buffer_new_from_data(buffer, data, length, data_static)`: the
return code and the buffer stored through `buffer` (`none`: nothing is stored,
or, as for `buffer_append_data`, the copied storage is not a determined
sequence of bytes).  `buffer` is the reference to the caller's pointer
variable (`none`: `NULL`).  `uninit` is the indeterminate content of the newly
allocated `buffer_t`: a field the function does not assign keeps it.
Allocation is taken to succeed. -/
def buffer_new_from_data (RC_BAD_PARAM : Int) (uninit : buffer_t)
    (buffer : Option (Option buffer_t)) (data : Option (List uint8_t)) (length : Nat)
    (data_static : Int) : Int × Option buffer_t :=
  match buffer with
  | none => (RC_BAD_PARAM, none)
  | some _ =>
    match data with
    | none => (0, some { uninit with size_bytes := length, buffer_current := none })
    | some src =>
      if length > 0 then
        if data_static = 0 then
          (0, ((memcpy_into (malloc length) 0 src length).bind determined).map fun bytes =>
            { size_bytes := length, data := some bytes, buffer_current := some 0 })
        else
          (0, some { size_bytes := length, data := some src, buffer_current := some 0 })
      else (0, some { uninit with size_bytes := length, buffer_current := none })

/-! ### Dump -/

/-- The constant `INDENT_BREAK` of the source. -/
def INDENT_BREAK : Nat := 20

/-- The text of `fprintf(file, "0x%02x ", byte)`. -/
def hex_byte (byte : uint8_t) : List Char :=
  ['0', 'x', Nat.digitChar (byte.val / 16), Nat.digitChar (byte.val % 16), ' ']

/-- The text written by the first `i` rounds of the loop of `buffer_dump`
(`none`: a byte was read outside the storage).  Round `i` writes eight blanks
when `i % INDENT_BREAK == 0`, then the byte, then a newline when
`i % INDENT_BREAK == INDENT_BREAK - 1`. -/
def dump_loop (buffer : buffer_t) : Nat → Option (List Char)
  | 0 => some []
  | i + 1 =>
    match dump_loop buffer i, load buffer i with
    | some text, some byte =>
      some (text ++ (if i % INDENT_BREAK = 0 then "        ".toList else [])
        ++ hex_byte byte
        ++ (if i % INDENT_BREAK = INDENT_BREAK - 1 then "\n".toList else []))
    | _, _ => none

/-- What `buffer_dump` leaves behind: the buffer, the stream `file` the calls
of `fprintf` write to (`none`: there is no such stream, or the text is
indeterminate) and the text on the standard output stream. -/
structure dump_result where
  buffer : Option buffer_t
  sink : Option (List Char)
  stdout_text : List Char
deriving DecidableEq

/-- The function `buffer_dump(buffer, to)`.  `to_` stands for the argument `to`:
the text already on the caller's stream (`none`: `NULL`); `stdout_text` is the
text already on the standard output.  The source copies `to` into `file` before
it replaces a `NULL` `to` by `stdout`, and every `fprintf` writes to `file`;
after the loop `i` equals `size_bytes`. -/
def buffer_dump (buffer : Option buffer_t) (to_ : Option (List Char))
    (stdout_text : List Char) : dump_result :=
  match buffer with
  | none => { buffer := none, sink := to_, stdout_text := stdout_text }
  | some b =>
    { buffer := some b
      sink :=
        match to_, dump_loop b b.size_bytes with
        | some written, some body =>
          some (written ++ "<Buffer>\n".toList
            ++ ("    ".toList ++ "<Length>".toList ++ Nat.toDigits 10 b.size_bytes
                ++ "<Length>\n".toList)
            ++ ("    ".toList ++ "<Bytes>\n".toList)
            ++ body
            ++ (if b.size_bytes % INDENT_BREAK ≠ INDENT_BREAK - 1 then "\n".toList else [])
            ++ ("    ".toList ++ "</Bytes>\n".toList)
            ++ "</Buffer>\n".toList)
        | _, _ => none
      stdout_text := stdout_text }

/-! ### Properties as the specification states them -/

/-- The property the specification states of a bit fetch, for one call on the
buffer `b`: the call returns `RC_OK` and stores a value whose bit `i`, for
`i < nbits`, is bit `(offset + i) % 8` of storage byte `(offset + i) / 8`, and
whose bits from `nbits` on are zero.  Positions are plain integers here. -/
def fetch_bits_claim (RC_OK RC_BAD_PARAM : Int) (b : buffer_t) (offset nbits v0 : Nat) : Prop :=
  ∃ v, buffer_fetch_bits RC_OK RC_BAD_PARAM (some b) offset nbits (some v0)
      = { rc := some RC_OK, value := some v } ∧
    (∀ i, i < nbits →
      (load b ((offset + i) / 8)).map (fun byte => byte.val.testBit ((offset + i) % 8))
        = some (v.testBit i)) ∧
    (∀ i, nbits ≤ i → v.testBit i = false)

/-- The property the specification states of a fixed-width getter `get` of
`size` bytes on the buffer `b` with storage `s`: whatever the local variable
held before, the value returned is the integer whose host-order byte image is
the `size` storage bytes from byte `offset >> 3` on; on a little-endian host
that is the sum of `storage[(offset >> 3) + j] * 256 ^ j`; and two offsets with
the same `offset >> 3` give the same result. -/
def get_claim (get : byte_order → Nat → Option buffer_t → Nat → Option Nat × Option buffer_t)
    (size : Nat) (b : buffer_t) (s : List uint8_t) (offset : Nat) : Prop :=
  ∀ host uninit,
    (get host uninit (some b) offset).1
      = some (from_bytes host ((s.drop (offset >>> 3)).take size)) ∧
    (get byte_order.little uninit (some b) offset).1
      = some (∑ j ∈ Finset.range size, (s.getD ((offset >>> 3) + j) 0).val * 256 ^ j) ∧
    ∀ other, other < 2 ^ 32 → other >>> 3 = offset >>> 3 →
      get host uninit (some b) other = get host uninit (some b) offset

/-- The valid bytes of a buffer: the first `size_bytes` bytes of its storage,
no bytes when it has no storage. -/
def valid_bytes (b : buffer_t) : List uint8_t :=
  match b.data with
  | none => []
  | some s => s.take b.size_bytes

/-- The number of bytes that back the storage of a buffer; no byte when there
is no storage. -/
def backing_bytes (b : buffer_t) : Nat :=
  match b.data with
  | none => 0
  | some s => s.length

/-- The value rebuilt from single-bit reads, as the specification words it: the
bitwise OR over `i < n` of the value of `buffer_fetch_bits(offset + i, 1)`
shifted left by `i` (`none` when one of the reads yields no value).  The
argument `offset + i` is a `uint32_t`. -/
def rebuilt_from_bits (RC_OK RC_BAD_PARAM : Int) (b : buffer_t) (offset : Nat) :
    Nat → Option Nat
  | 0 => some 0
  | i + 1 =>
    match rebuilt_from_bits RC_OK RC_BAD_PARAM b offset i,
      (buffer_fetch_bits RC_OK RC_BAD_PARAM (some b) ((offset + i) % 2 ^ 32) 1 (some 0)).value
    with
    | some acc, some bit => some (acc ||| (bit <<< i))
    | _, _ => none

/-- The rows of a dump, as the specification words the wrapping: the bytes cut
into rows of `INDENT_BREAK` values, a shorter row last when the count is not a
multiple of `INDENT_BREAK`.  `fuel` bounds the number of rows. -/
def rows_fuel : Nat → List uint8_t → List (List uint8_t)
  | 0, _ => []
  | fuel + 1, bytes =>
    match bytes with
    | [] => []
    | _ :: _ => bytes.take INDENT_BREAK :: rows_fuel fuel (bytes.drop INDENT_BREAK)

/-- The rows of a dump of `bytes`. -/
def rows (bytes : List uint8_t) : List (List uint8_t) :=
  rows_fuel bytes.length bytes

/-- The text of one row: eight blanks, the values of the row, and a newline
behind a row of `INDENT_BREAK` values. -/
def row_text (row : List uint8_t) : List Char :=
  "        ".toList ++ row.flatMap hex_byte
    ++ (if row.length = INDENT_BREAK then "\n".toList else [])

/-- The rendering of a buffer of `size_bytes` bytes `bytes`: the opening
marker, the length, the rows, a newline unless `size_bytes % 20` is 19, and the
closing markers. -/
def dump_text (size_bytes : Nat) (bytes : List uint8_t) : List Char :=
  "<Buffer>\n".toList
    ++ ("    ".toList ++ "<Length>".toList ++ Nat.toDigits 10 size_bytes ++ "<Length>\n".toList)
    ++ ("    ".toList ++ "<Bytes>\n".toList)
    ++ (rows bytes).flatMap row_text
    ++ (if size_bytes % INDENT_BREAK ≠ INDENT_BREAK - 1 then "\n".toList else [])
    ++ ("    ".toList ++ "</Bytes>\n".toList)
    ++ "</Buffer>\n".toList

/-- The text the loop of `buffer_dump` writes for the bytes `bytes` when it
meets them from round `i` on. -/
def dump_from (i : Nat) : List uint8_t → List Char
  | [] => []
  | byte :: rest =>
    (if i % INDENT_BREAK = 0 then "        ".toList else [])
      ++ hex_byte byte
      ++ (if i % INDENT_BREAK = INDENT_BREAK - 1 then "\n".toList else [])
      ++ dump_from (i + 1) rest

/-- A buffer of the 19 bytes `0x01 .. 0x13`. -/
def buffer_19 : buffer_t :=
  { size_bytes := 19
    data := some [0x01, 0x02, 0x03, 0x04, 0x05, 0x06, 0x07, 0x08, 0x09, 0x0a,
                  0x0b, 0x0c, 0x0d, 0x0e, 0x0f, 0x10, 0x11, 0x12, 0x13]
    buffer_current := some 0 }

/-- The property the specification states of one append of the array `data`
(all of its bytes) to the buffer `b`: the call returns 0 and afterwards the
storage holds the previous `size_bytes` bytes followed by the bytes of `data`,
`size_bytes` is its previous value plus the length (the length alone when the
buffer had no storage), and the cursor is at byte 0. -/
def append_claim (b : buffer_t) (data : List uint8_t) : Prop :=
  ∃ after, buffer_append_data (some b) (some data) data.length = (0, some after) ∧
    after.data = some (valid_bytes b ++ data) ∧
    after.size_bytes
      = (match b.data with
         | none => data.length
         | some _ => b.size_bytes + data.length) ∧
    after.buffer_current = some 0

/-- The property the specification states of two appends: appending `A` and
then `B` leaves a buffer with the same bytes and the same `size_bytes` as
appending `A ++ B` once. -/
def append_assoc_claim (b : buffer_t) (A B : List uint8_t) : Prop :=
  ∃ twice once,
    (buffer_append_data (buffer_append_data (some b) (some A) A.length).2 (some B)
      B.length).2 = some twice ∧
    (buffer_append_data (some b) (some (A ++ B)) (A ++ B).length).2 = some once ∧
    twice.data = once.data ∧ twice.size_bytes = once.size_bytes

/-- A buffer of `2 ^ 32 - 1` zero bytes, the largest count `size_bytes` can
hold. -/
def full_buffer : buffer_t :=
  { size_bytes := 2 ^ 32 - 1
    data := some (List.replicate (2 ^ 32 - 1) 0)
    buffer_current := some 0 }

/-- The empty buffer: no bytes, no storage, no cursor. -/
def empty_buffer : buffer_t :=
  { size_bytes := 0, data := none, buffer_current := none }

/-- A buffer of the three bytes `0x11, 0x22, 0x33`. -/
def buffer_3 : buffer_t :=
  { size_bytes := 3, data := some [0x11, 0x22, 0x33], buffer_current := some 0 }

/-- The two bytes `0x12, 0x34` of the concrete scenarios of the specification. -/
def buffer_1234 : buffer_t :=
  { size_bytes := 2, data := some [0x12, 0x34], buffer_current := some 0 }

/-- A buffer of `2 ^ 29 + 1` bytes, all zero but the last one, which is `1`:
its last byte lies beyond the bits a `uint32_t` bit offset can address. -/
def wide_buffer : buffer_t :=
  { size_bytes := 2 ^ 29 + 1
    data := some (List.replicate (2 ^ 29) 0 ++ [1])
    buffer_current := some 0 }

/-! ## Bit fetch -/

theorem testBit_and_one_shiftLeft (x k i j : Nat) :
    ((((x >>> k) &&& 1) <<< i)).testBit j = (decide (j = i) && x.testBit k) := by
  rw [Nat.testBit_shiftLeft, Nat.testBit_and, Nat.testBit_shiftRight]
  by_cases hji : j = i
  · subst hji
    simp
  · by_cases hge : j ≥ i
    · have h1 : Nat.testBit 1 (j - i) = false := by
        cases hb : Nat.testBit 1 (j - i) with
        | false => rfl
        | true =>
          have := Nat.testBit_one_eq_true_iff_self_eq_zero.mp hb
          omega
      simp [hji, h1]
    · simp [hji, hge]

/-- The loop of `buffer_fetch_bits`: when the bytes it addresses are in the
storage, after `n <= 32` rounds bit `j` of `temp` is bit
`(offset + j) % 2 ^ 32` of the storage for `j < n` and `0` for `j >= n`. -/
theorem fetch_bits_temp_testBit (b : buffer_t) (s : List uint8_t) (offset : Nat)
    (hs : b.data = some s) :
    ∀ n, n ≤ 32 → (∀ i, i < n → (offset + i) % 2 ^ 32 / 8 < s.length) →
      ∃ v, fetch_bits_temp b offset n = some v ∧
        ∀ j, v.testBit j = (decide (j < n) && storage_bit s ((offset + j) % 2 ^ 32)) := by
  intro n
  induction n with
  | zero =>
    intro _ _
    exact ⟨0, rfl, by intro j; simp⟩
  | succ n ih =>
    intro hn hin
    obtain ⟨v, hv, hbits⟩ := ih (by omega) (fun i hi => hin i (by omega))
    have hlt := hin n (by omega)
    obtain ⟨byte, hbyte⟩ : ∃ byte, s[(offset + n) % 2 ^ 32 / 8]? = some byte :=
      ⟨_, List.getElem?_eq_getElem hlt⟩
    have hload : load b ((offset + n) % 2 ^ 32 / 8) = some byte := by
      simp only [load, hs, hbyte]
    have hsb : storage_bit s ((offset + n) % 2 ^ 32)
        = byte.val.testBit ((offset + n) % 2 ^ 32 % 8) := by
      simp only [storage_bit, hbyte]
    refine ⟨(v ||| ((byte.val >>> ((offset + n) % 2 ^ 32 % 8)) &&& 1) <<< n) % 2 ^ 32,
      by simp only [fetch_bits_temp, hv, hload], ?_⟩
    intro j
    rw [Nat.testBit_mod_two_pow, Nat.testBit_or, testBit_and_one_shiftLeft, hbits j]
    by_cases hjn : j = n
    · subst hjn
      rw [hsb]
      have h32 : j < 32 := by omega
      simp [h32]
    · by_cases hj : j < n
      · have h32 : j < 32 := by omega
        have h2 : j < n + 1 := by omega
        simp [hjn, hj, h32, h2]
      · have h2 : ¬ j < n + 1 := by omega
        simp [hjn, hj, h2]

theorem storage_bit_of_byte (s : List uint8_t) (p : Nat) (byte : uint8_t)
    (h : s[p / 8]? = some byte) : storage_bit s p = byte.val.testBit (p % 8) := by
  unfold storage_bit
  rw [h]

/-- A bit fetch of two bits at offset `2 ^ 32 - 1` takes its second bit from
byte `0`: a storage whose byte `0` is `0` and whose byte `2 ^ 29` is `1` breaks
the stated property. -/
theorem fetch_bits_claim_fails_of_wrap (b : buffer_t) (s : List uint8_t)
    (hs : b.data = some s) (hlength : s.length = 2 ^ 29 + 1)
    (hbyte0 : s[0]? = some 0) (hbyteN : s[2 ^ 29]? = some 1) :
    ¬ fetch_bits_claim 0 (-1) b (2 ^ 32 - 1) 2 0 := by
  rintro ⟨v, hv, hbits, -⟩
  have hin : ∀ i, i < 2 → (2 ^ 32 - 1 + i) % 2 ^ 32 / 8 < s.length := by
    intro i hi
    rw [hlength]
    omega
  obtain ⟨w, hw, hwbits⟩ := fetch_bits_temp_testBit b s (2 ^ 32 - 1) hs 2 (by omega) hin
  have hvw : v = w := by
    have h1 : (buffer_fetch_bits 0 (-1) (some b) (2 ^ 32 - 1) ((2 : Nat) : Int) (some 0)).value
        = some w := by
      simp only [buffer_fetch_bits]
      rw [if_neg (by omega), Int.toNat_ofNat, hw]
    rw [hv] at h1
    exact Option.some.inj h1
  subst hvw
  have hcode := hwbits 1
  have hclaim := hbits 1 (by omega)
  have e1 : (2 ^ 32 - 1 + 1) % 2 ^ 32 = 0 := by norm_num
  have e2 : (2 ^ 32 - 1 + 1) / 8 = 2 ^ 29 := by norm_num
  have e3 : (2 ^ 32 - 1 + 1) % 8 = 0 := by norm_num
  have h0 : s[0 / 8]? = some (0 : uint8_t) := by rw [Nat.zero_div]; exact hbyte0
  rw [e1, storage_bit_of_byte s 0 0 h0] at hcode
  rw [e2, e3] at hclaim
  simp only [load, hs, hbyteN, Option.map_some'] at hclaim
  rw [hcode] at hclaim
  simp at hclaim

/-- C1 (as stated, refuted): on a buffer of `2 ^ 29 + 1` bytes the request
`offset = 2 ^ 32 - 1`, `nbits = 2` satisfies `1 <= nbits <= 32` and
`offset + nbits <= 8 * size_bytes`, yet the stated property fails: the
`uint32_t` sum `offset + 1` wraps to `0`, so bit 1 of the value is bit 0 of
byte `0` and not bit 0 of byte `2 ^ 29`. -/
theorem buffer_fetch_bits_wraps :
    wide_buffer.data.map List.length = some wide_buffer.size_bytes ∧
    1 ≤ 2 ∧ 2 ≤ 32 ∧ (2 ^ 32 - 1) + 2 ≤ 8 * wide_buffer.size_bytes ∧
    ¬ fetch_bits_claim 0 (-1) wide_buffer (2 ^ 32 - 1) 2 0 := by
  have hs : wide_buffer.data = some (List.replicate (2 ^ 29) (0 : uint8_t) ++ [1]) := rfl
  have hsize : wide_buffer.size_bytes = 2 ^ 29 + 1 := rfl
  have hlength : (List.replicate (2 ^ 29) (0 : uint8_t) ++ [1]).length = 2 ^ 29 + 1 := by
    rw [List.length_append, List.length_replicate, List.length_singleton]
  have hbyte0 : (List.replicate (2 ^ 29) (0 : uint8_t) ++ [1])[0]? = some 0 := by
    rw [List.getElem?_append_left (by rw [List.length_replicate]; omega),
      List.getElem?_replicate, if_pos (by omega)]
  have hbyteN : (List.replicate (2 ^ 29) (0 : uint8_t) ++ [1])[2 ^ 29]? = some 1 := by
    rw [List.getElem?_append_right (by rw [List.length_replicate]),
      List.length_replicate, Nat.sub_self]
    rfl
  refine ⟨?_, by omega, by omega, ?_, ?_⟩
  · rw [hs, hsize, Option.map_some', hlength]
  · rw [hsize]
    norm_num
  · exact fetch_bits_claim_fails_of_wrap wide_buffer _ hs hlength hbyte0 hbyteN

/-- C1 (amended): for a buffer whose storage holds its `size_bytes` bytes and a
request with `1 <= nbits <= 32`, `offset + nbits <= 8 * size_bytes` and
`offset + nbits <= 2 ^ 32` (no bit position wraps), `buffer_fetch_bits` returns
`RC_OK` and stores a value whose bit `i < nbits` is bit `(offset + i) % 8` of
storage byte `(offset + i) / 8` and whose higher bits are zero; on the bytes
`0x12, 0x34` with offset 4 and 4 bits the value is `0x1`. -/
theorem buffer_fetch_bits_in_bounds (RC_OK RC_BAD_PARAM : Int) (b : buffer_t)
    (s : List uint8_t) (offset nbits v0 : Nat)
    (hs : b.data = some s) (hlen : b.size_bytes ≤ s.length)
    (h1 : 1 ≤ nbits) (h32 : nbits ≤ 32) (hb : offset + nbits ≤ 8 * b.size_bytes)
    (hw : offset + nbits ≤ 2 ^ 32) :
    fetch_bits_claim RC_OK RC_BAD_PARAM b offset nbits v0 ∧
    buffer_fetch_bits RC_OK RC_BAD_PARAM (some buffer_1234) 4 4 (some v0)
      = { rc := some RC_OK, value := some 0x1 } := by
  have hmod : ∀ i, i < nbits → (offset + i) % 2 ^ 32 = offset + i := fun i hi =>
    Nat.mod_eq_of_lt (by omega)
  have hin : ∀ i, i < nbits → (offset + i) % 2 ^ 32 / 8 < s.length := by
    intro i hi
    rw [hmod i hi]
    omega
  obtain ⟨v, hv, hbits⟩ := fetch_bits_temp_testBit b s offset hs nbits h32 hin
  refine ⟨⟨v, ?_, ?_, ?_⟩, ?_⟩
  · simp only [buffer_fetch_bits]
    rw [if_neg (by omega), Int.toNat_ofNat, hv]
  · intro i hi
    have hlt : (offset + i) / 8 < s.length := by omega
    rw [hbits i, hmod i hi]
    simp [load, hs, storage_bit, List.getElem?_eq_getElem hlt, hi]
  · intro i hi
    rw [hbits i]
    have : ¬ i < nbits := by omega
    simp [this]
  · simp only [buffer_fetch_bits]
    rw [if_neg (by omega)]
    rfl

/-- C1 witness: the amended statement applied to the bytes `0x12, 0x34`,
offset 4, 4 bits. -/
theorem buffer_fetch_bits_in_bounds_witness :
    fetch_bits_claim 0 (-1) buffer_1234 4 4 0 ∧
    buffer_fetch_bits 0 (-1) (some buffer_1234) 4 4 (some 0)
      = { rc := some 0, value := some 0x1 } :=
  buffer_fetch_bits_in_bounds 0 (-1) buffer_1234 [0x12, 0x34] 4 4 0 rfl (by decide)
    (by decide) (by decide) (by decide) (by decide)

/-! ## Fixed-width fetch -/

theorem shiftRight_three_lt (offset : Nat) (ho : offset < 2 ^ 32) : offset >>> 3 < 2 ^ 29 := by
  rw [Nat.shiftRight_eq_div_pow]
  omega

theorem from_to_little (size : Nat) : ∀ v, from_little (to_little size v) = v % 256 ^ size := by
  induction size with
  | zero => intro v; simp [to_little, from_little, Nat.mod_one]
  | succ n ih =>
    intro v
    simp only [to_little, from_little, ih]
    rw [pow_succ, Nat.mul_comm (256 ^ n) 256, Nat.mod_mul]

theorem length_to_little (size : Nat) : ∀ v, (to_little size v).length = size := by
  induction size with
  | zero => intro v; rfl
  | succ n ih => intro v; simp [to_little, ih]

theorem length_to_bytes (host : byte_order) (size v : Nat) :
    (to_bytes host size v).length = size := by
  cases host <;> simp [to_bytes, length_to_little]

/-- Reading back the byte image of `v` in `size` bytes gives `v` reduced to
`size` bytes. -/
theorem from_to_bytes (host : byte_order) (size v : Nat) :
    from_bytes host (to_bytes host size v) = v % 256 ^ size := by
  cases host <;> simp [to_bytes, from_bytes, from_to_little]

/-- The little-endian value of `n` storage bytes is the sum of the bytes
weighted by the powers of 256. -/
theorem from_little_slice (s : List uint8_t) : ∀ n k, k + n ≤ s.length →
    from_little ((s.drop k).take n)
      = ∑ j ∈ Finset.range n, (s.getD (k + j) 0).val * 256 ^ j := by
  intro n
  induction n with
  | zero => intro k _; simp [from_little]
  | succ n ih =>
    intro k hk
    have hlt : k < s.length := by omega
    rw [List.drop_eq_getElem_cons hlt, List.take_succ_cons, from_little, ih (k + 1) (by omega),
      Finset.sum_range_succ']
    simp only [Nat.add_zero, pow_zero, Nat.mul_one]
    rw [List.getD_eq_getElem s 0 hlt, Finset.mul_sum, Nat.add_comm]
    congr 1
    apply Finset.sum_congr rfl
    intro j _
    rw [pow_succ]
    have : k + 1 + j = k + (j + 1) := by omega
    rw [this]
    ring

/-- A copy that stays inside the source and fills the destination exactly. -/
theorem memcpy_exact (dst s : List uint8_t) (k n : Nat) (hk : k + n ≤ s.length)
    (hn : dst.length = n) : memcpy dst (some s) k n = some ((s.drop k).take n) := by
  have hd : dst.drop n = [] := List.drop_eq_nil_of_le (by omega)
  simp only [memcpy]
  rw [if_pos ⟨hk, by omega⟩, hd, List.append_nil]

/-- A fetch whose bound test passes: code 0, cursor behind the bytes read,
destination filled by `memcpy`, which reads `n` bytes from `offset >> 3`. -/
theorem buffer_fetch_pass (b : buffer_t) (offset : Nat) (size : Int) (n : Nat)
    (dst : List uint8_t) (hpos : 0 < size) (hu : to_uint32 size = n) (hz : to_size_t size = n)
    (ho : offset < 2 ^ 32) (hn : n < 2 ^ 31) (hfit : (offset >>> 3) + n ≤ b.size_bytes) :
    buffer_fetch (some b) offset size (some dst)
      = { rc := 0
          buffer := some { b with buffer_current := some ((offset >>> 3) + n) }
          value := memcpy dst b.data (offset >>> 3) n
          reads := some (offset >>> 3, n) } := by
  have hk := shiftRight_three_lt offset ho
  have hmod : ((offset >>> 3) + n) % 2 ^ 32 = (offset >>> 3) + n := Nat.mod_eq_of_lt (by omega)
  simp only [buffer_fetch, hu, hz, hmod]
  rw [if_neg (by omega), if_neg (by omega)]

/-- A fetch whose bound test fails: code -1, nothing read, nothing changed. -/
theorem buffer_fetch_short (b : buffer_t) (offset : Nat) (size : Int) (n : Nat)
    (dst : List uint8_t) (hu : to_uint32 size = n)
    (ho : offset < 2 ^ 32) (hn : n < 2 ^ 31) (hshort : b.size_bytes < (offset >>> 3) + n) :
    buffer_fetch (some b) offset size (some dst)
      = { rc := -1, buffer := some b, value := some dst, reads := none } := by
  have hk := shiftRight_three_lt offset ho
  have hmod : ((offset >>> 3) + n) % 2 ^ 32 = (offset >>> 3) + n := Nat.mod_eq_of_lt (by omega)
  simp only [buffer_fetch, hu, hmod]
  by_cases hs : size ≤ 0
  · rw [if_pos hs]
  · rw [if_neg hs, if_pos hshort]

/-- The getters share one shape: a fetch of `size` bytes into a `size`-byte
local variable, read back in host order.  This is the stated property for that
shape. -/
theorem get_claim_of_fetch
    (get : byte_order → Nat → Option buffer_t → Nat → Option Nat × Option buffer_t)
    (size : Int) (n : Nat)
    (hget : ∀ host uninit buffer offset, get host uninit buffer offset
      = ((buffer_fetch buffer offset size (some (to_bytes host n uninit))).value.map
          (from_bytes host),
         (buffer_fetch buffer offset size (some (to_bytes host n uninit))).buffer))
    (hpos : 0 < size) (hu : to_uint32 size = n) (hz : to_size_t size = n) (hn : n < 2 ^ 31)
    (b : buffer_t) (s : List uint8_t) (offset : Nat)
    (hs : b.data = some s) (hlen : b.size_bytes ≤ s.length) (ho : offset < 2 ^ 32)
    (hfit : (offset >>> 3) + n ≤ b.size_bytes) : get_claim get n b s offset := by
  have hval : ∀ host uninit, (get host uninit (some b) offset).1
      = some (from_bytes host ((s.drop (offset >>> 3)).take n)) := by
    intro host uninit
    rw [hget, buffer_fetch_pass b offset size n _ hpos hu hz ho hn hfit, hs,
      memcpy_exact _ s _ n (by omega) (length_to_bytes host n uninit)]
    rfl
  intro host uninit
  refine ⟨hval host uninit, ?_, ?_⟩
  · rw [hval byte_order.little uninit]
    simp only [from_bytes]
    rw [from_little_slice s n _ (by omega)]
  · intro other hother hsame
    rw [hget, hget, buffer_fetch_pass b offset size n _ hpos hu hz ho hn hfit,
      buffer_fetch_pass b other size n _ hpos hu hz hother hn (by rw [hsame]; exact hfit), hsame]

/-- C2: for a buffer whose storage holds its `size_bytes` bytes and a width
`size` in 1, 2, 4, 8 with `(offset >> 3) + size <= size_bytes`, the getter of
that width returns the integer whose host-order byte image is the `size`
storage bytes from byte `offset >> 3` on (little-endian host: the sum of
`storage[(offset >> 3) + j] * 256 ^ j`), and the result depends on `offset`
only through `offset >> 3`; on the bytes `0x12, 0x34` the 16-bit getter at
offset 0 gives `0x3412` on a little-endian host. -/
theorem buffer_get_reads_host_order (b : buffer_t) (s : List uint8_t) (offset : Nat)
    (hs : b.data = some s) (hlen : b.size_bytes ≤ s.length) (ho : offset < 2 ^ 32) :
    ((offset >>> 3) + 1 ≤ b.size_bytes → get_claim buffer_get_uint8_t 1 b s offset) ∧
    ((offset >>> 3) + 2 ≤ b.size_bytes → get_claim buffer_get_uint16_t 2 b s offset) ∧
    ((offset >>> 3) + 4 ≤ b.size_bytes → get_claim buffer_get_uint32_t 4 b s offset) ∧
    ((offset >>> 3) + 8 ≤ b.size_bytes → get_claim buffer_get_uint64_t 8 b s offset) ∧
    ∀ uninit, (buffer_get_uint16_t byte_order.little uninit (some buffer_1234) 0).1
      = some 0x3412 := by
  refine ⟨fun h => ?_, fun h => ?_, fun h => ?_, fun h => ?_, ?_⟩
  · exact get_claim_of_fetch buffer_get_uint8_t 1 1 (fun _ _ _ _ => rfl) (by decide) (by decide)
      (by decide) (by decide) b s offset hs hlen ho h
  · exact get_claim_of_fetch buffer_get_uint16_t 2 2 (fun _ _ _ _ => rfl) (by decide)
      (by decide) (by decide) (by decide) b s offset hs hlen ho h
  · exact get_claim_of_fetch buffer_get_uint32_t 4 4 (fun _ _ _ _ => rfl) (by decide)
      (by decide) (by decide) (by decide) b s offset hs hlen ho h
  · exact get_claim_of_fetch buffer_get_uint64_t 8 8 (fun _ _ _ _ => rfl) (by decide)
      (by decide) (by decide) (by decide) b s offset hs hlen ho h
  · intro uninit
    have h := (get_claim_of_fetch buffer_get_uint16_t 2 2 (fun _ _ _ _ => rfl) (by decide)
      (by decide) (by decide) (by decide) buffer_1234 [0x12, 0x34] 0 rfl (by decide) (by decide)
      (by decide) byte_order.little uninit).1
    rw [h]
    rfl

/-- C2 witness: the 16-bit and the 8-bit getter on the bytes `0x12, 0x34`. -/
theorem buffer_get_reads_host_order_witness :
    get_claim buffer_get_uint8_t 1 buffer_1234 [0x12, 0x34] 9 ∧
    get_claim buffer_get_uint16_t 2 buffer_1234 [0x12, 0x34] 0 :=
  ⟨(buffer_get_reads_host_order buffer_1234 [0x12, 0x34] 9 rfl (by decide) (by decide)).1
      (by decide),
   (buffer_get_reads_host_order buffer_1234 [0x12, 0x34] 0 rfl (by decide) (by decide)).2.1
      (by decide)⟩

theorem to_uint32_of_nonneg (size : Int) (h0 : 0 ≤ size) (h : size < 2 ^ 31) :
    to_uint32 size = size.toNat := by
  unfold to_uint32
  rw [Int.emod_eq_of_lt h0 (by omega)]

theorem to_size_t_of_nonneg (size : Int) (h0 : 0 ≤ size) (h : size < 2 ^ 31) :
    to_size_t size = size.toNat := by
  unfold to_size_t
  rw [Int.emod_eq_of_lt h0 (by omega)]

/-- A getter whose fetch fails hands back what its local variable held. -/
theorem get_short_of_fetch (host : byte_order) (uninit : Nat) (b : buffer_t) (offset : Nat)
    (size : Int) (n : Nat) (hu : to_uint32 size = n) (hn : n < 2 ^ 31) (ho : offset < 2 ^ 32)
    (hshort : b.size_bytes < (offset >>> 3) + n) :
    ((buffer_fetch (some b) offset size (some (to_bytes host n uninit))).value.map
        (from_bytes host),
      (buffer_fetch (some b) offset size (some (to_bytes host n uninit))).buffer)
      = (some (uninit % 256 ^ n), some b) := by
  rw [buffer_fetch_short b offset size n _ hu ho hn hshort]
  simp only [Option.map_some', from_to_bytes]

/-- C3 (the code at the failing input): on the empty buffer the data is
insufficient for the 8-bit getter at offset 0; the getter drops the -1 of
`buffer_fetch` and returns its local variable, which was never initialised:
with `0xAB` left in it the getter returns `0xAB`, not 0. -/
theorem buffer_get_uint8_t_not_zero :
    empty_buffer.size_bytes < (0 >>> 3) + 1 ∧
    (buffer_get_uint8_t byte_order.little 0xAB (some empty_buffer) 0).1 = some 0xAB ∧
    (buffer_get_uint8_t byte_order.little 0xAB (some empty_buffer) 0).1 ≠ some 0 := by
  decide

/-- The same defect in all four getters: for a width `size` in 1, 2, 4, 8 and
`size_bytes < (offset >> 3) + size` the fetch fails without writing the
getter's local variable, and what the getter hands back is whatever that
variable held before the call (reduced to `size` bytes); the buffer is as it
was. -/
theorem buffer_get_short_returns_uninit (host : byte_order) (uninit : Nat) (b : buffer_t)
    (offset : Nat) (ho : offset < 2 ^ 32) :
    (b.size_bytes < (offset >>> 3) + 1 →
      buffer_get_uint8_t host uninit (some b) offset = (some (uninit % 256 ^ 1), some b)) ∧
    (b.size_bytes < (offset >>> 3) + 2 →
      buffer_get_uint16_t host uninit (some b) offset = (some (uninit % 256 ^ 2), some b)) ∧
    (b.size_bytes < (offset >>> 3) + 4 →
      buffer_get_uint32_t host uninit (some b) offset = (some (uninit % 256 ^ 4), some b)) ∧
    (b.size_bytes < (offset >>> 3) + 8 →
      buffer_get_uint64_t host uninit (some b) offset = (some (uninit % 256 ^ 8), some b)) :=
  ⟨fun h => get_short_of_fetch host uninit b offset 1 1 (by decide) (by decide) ho h,
   fun h => get_short_of_fetch host uninit b offset 2 2 (by decide) (by decide) ho h,
   fun h => get_short_of_fetch host uninit b offset 4 4 (by decide) (by decide) ho h,
   fun h => get_short_of_fetch host uninit b offset 8 8 (by decide) (by decide) ho h⟩

/-- An instance: the 16-bit getter at bit offset 8 of the two bytes
`0x12, 0x34` hands back the `0xBEEF` its local variable held. -/
theorem buffer_get_short_returns_uninit_witness :
    buffer_get_uint16_t byte_order.big 0xBEEF (some buffer_1234) 8
      = (some (0xBEEF % 256 ^ 2), some buffer_1234) :=
  (buffer_get_short_returns_uninit byte_order.big 0xBEEF buffer_1234 8 (by decide)).2.1
    (by decide)

/-- C4: for a buffer and a destination that are there, an offset and a size
`> 0`, `buffer_fetch` returns -1 exactly when
`(offset >> 3) + size > size_bytes` (and 0 otherwise); when it returns -1 it
hands no storage range to `memcpy` and leaves destination and buffer as they
were. -/
theorem buffer_fetch_fails_iff (b : buffer_t) (dst : List uint8_t) (offset : Nat) (size : Int)
    (ho : offset < 2 ^ 32) (hpos : 0 < size) (hmax : size < 2 ^ 31) :
    ((buffer_fetch (some b) offset size (some dst)).rc = -1 ↔
      (b.size_bytes : Int) < ((offset >>> 3 : Nat) : Int) + size) ∧
    ((buffer_fetch (some b) offset size (some dst)).rc = 0 ↔
      ¬ (b.size_bytes : Int) < ((offset >>> 3 : Nat) : Int) + size) ∧
    ((buffer_fetch (some b) offset size (some dst)).rc = -1 →
      (buffer_fetch (some b) offset size (some dst)).reads = none ∧
      (buffer_fetch (some b) offset size (some dst)).value = some dst ∧
      (buffer_fetch (some b) offset size (some dst)).buffer = some b) := by
  have hu := to_uint32_of_nonneg size (by omega) hmax
  have hz := to_size_t_of_nonneg size (by omega) hmax
  have hn : size.toNat < 2 ^ 31 := by omega
  by_cases hshort : b.size_bytes < (offset >>> 3) + size.toNat
  · have hint : (b.size_bytes : Int) < ((offset >>> 3 : Nat) : Int) + size := by omega
    rw [buffer_fetch_short b offset size _ dst hu ho hn hshort]
    simp [hint]
  · have hint : ¬ (b.size_bytes : Int) < ((offset >>> 3 : Nat) : Int) + size := by omega
    rw [buffer_fetch_pass b offset size _ dst hpos hu hz ho hn (by omega)]
    simp [hint]

/-- C4 witness: a 2-byte fetch at bit offset 8 of a 2-byte buffer. -/
theorem buffer_fetch_fails_iff_witness :
    (buffer_fetch (some buffer_1234) 8 2 (some [0, 0])).rc = -1 ∧
    (buffer_fetch (some buffer_1234) 8 2 (some [0, 0])).reads = none ∧
    (buffer_fetch (some buffer_1234) 8 2 (some [0, 0])).value = some [0, 0] ∧
    (buffer_fetch (some buffer_1234) 8 2 (some [0, 0])).buffer = some buffer_1234 :=
  have h := buffer_fetch_fails_iff buffer_1234 [0, 0] 8 2 (by decide) (by decide) (by decide)
  have hrc : (buffer_fetch (some buffer_1234) 8 2 (some [0, 0])).rc = -1 := h.1.mpr (by decide)
  ⟨hrc, h.2.2 hrc⟩

/-! ## Byte-range fetch -/

/-- C5: for a buffer, an offset and an `int` `n_bytes` with
`size_bytes < (offset >> 3) + n_bytes`, `buffer_fetch_nbytes` returns -1,
reads nothing and leaves the destination array as it was; so it does on a
3-byte buffer with offset 0 and `n_bytes = 4`. -/
theorem buffer_fetch_nbytes_short (b : buffer_t) (offset : Nat) (n_bytes : Int)
    (value : List uint8_t) (ho : offset < 2 ^ 32)
    (hmin : -2 ^ 31 ≤ n_bytes) (hmax : n_bytes < 2 ^ 31)
    (hshort : (b.size_bytes : Int) < ((offset >>> 3 : Nat) : Int) + n_bytes) :
    buffer_fetch_nbytes b offset n_bytes value
      = { rc := -1, value := some value, reads := none } ∧
    buffer_fetch_nbytes buffer_3 0 4 value
      = { rc := -1, value := some value, reads := none } := by
  have hk := shiftRight_three_lt offset ho
  have hlt : b.size_bytes < ((offset >>> 3) + to_uint32 n_bytes) % 2 ^ 32 := by
    unfold to_uint32
    omega
  constructor
  · simp only [buffer_fetch_nbytes]
    rw [if_pos hlt]
  · simp only [buffer_fetch_nbytes]
    rw [if_pos (by decide)]

/-- C5 witness: the 3-byte buffer, offset 0, four bytes asked for. -/
theorem buffer_fetch_nbytes_short_witness :
    buffer_fetch_nbytes buffer_3 0 4 [0xAA, 0xBB, 0xCC, 0xDD]
      = { rc := -1, value := some [0xAA, 0xBB, 0xCC, 0xDD], reads := none } :=
  (buffer_fetch_nbytes_short buffer_3 0 4 [0xAA, 0xBB, 0xCC, 0xDD] (by decide) (by decide)
    (by decide) (by decide)).1

/-- For `n_bytes >= 0` a byte-range fetch that returns 0 on a buffer whose
storage holds its `size_bytes` bytes has copied the `n_bytes` storage bytes
from `offset >> 3` on to the start of the destination, and has read below
`size_bytes` only. -/
theorem buffer_fetch_nbytes_copies (b : buffer_t) (s : List uint8_t) (offset : Nat)
    (n_bytes : Int) (value : List uint8_t) (hs : b.data = some s)
    (hlen : b.size_bytes ≤ s.length) (ho : offset < 2 ^ 32)
    (h0 : 0 ≤ n_bytes) (hmax : n_bytes < 2 ^ 31) (hdst : n_bytes.toNat ≤ value.length)
    (hrc : (buffer_fetch_nbytes b offset n_bytes value).rc = 0) :
    (buffer_fetch_nbytes b offset n_bytes value).value
      = some ((s.drop (offset >>> 3)).take n_bytes.toNat ++ value.drop n_bytes.toNat) ∧
    reads_below (buffer_fetch_nbytes b offset n_bytes value).reads b.size_bytes := by
  have hk := shiftRight_three_lt offset ho
  have hu := to_uint32_of_nonneg n_bytes h0 hmax
  have hz := to_size_t_of_nonneg n_bytes h0 hmax
  have hmod : ((offset >>> 3) + n_bytes.toNat) % 2 ^ 32 = (offset >>> 3) + n_bytes.toNat :=
    Nat.mod_eq_of_lt (by omega)
  simp only [buffer_fetch_nbytes, hu, hz, hmod] at hrc ⊢
  by_cases hshort : b.size_bytes < (offset >>> 3) + n_bytes.toNat
  · rw [if_pos hshort] at hrc
    simp at hrc
  · rw [if_neg hshort]
    refine ⟨?_, ?_⟩
    · simp only [memcpy, hs]
      rw [if_pos ⟨by omega, hdst⟩]
    · intro first count hr k hk1 hk2
      simp only [Option.some.injEq, Prod.mk.injEq] at hr
      omega

/-- C6 (the code at the failing input): on the 3-byte buffer with offset 32
and `n_bytes = -2` the bound test compares `size_bytes` with the `uint32_t` sum
`4 + (2 ^ 32 - 2) = 2` and passes; the call returns 0 after handing `memcpy`
the storage range that starts at index 4 and is `2 ^ 64 - 2` bytes long, which
is not below `size_bytes = 3`, and the destination is not a copy of storage
bytes. -/
theorem buffer_fetch_nbytes_negative_count :
    buffer_3.data.map List.length = some buffer_3.size_bytes ∧
    buffer_fetch_nbytes buffer_3 32 (-2) [0, 0, 0, 0]
      = { rc := 0, value := none, reads := some (4, 2 ^ 64 - 2) } ∧
    ¬ reads_below (buffer_fetch_nbytes buffer_3 32 (-2) [0, 0, 0, 0]).reads
        buffer_3.size_bytes := by
  refine ⟨by decide, by decide, ?_⟩
  intro h
  have h4 := h 4 (2 ^ 64 - 2) (by decide) 4 (Nat.le_refl 4) (by norm_num)
  exact absurd h4 (by decide)

/-! ## Bounds check -/

/-- C7 (the code at failing inputs): on the empty buffer a request for 7 bits
at offset 0 is answered 0 (sufficient) because `7 / 8 = 0`, although
`0 + 7 > 8 * 0`; and on a 3-byte buffer 16 bits at offset `2 ^ 32 - 8` are
answered 0 because the `uint32_t` sum wraps to 8. -/
theorem buffer_has_enouch_data_accepts_underflow :
    (0 + 7 > 8 * empty_buffer.size_bytes ∧
      buffer_has_enouch_data (some empty_buffer) 0 7 = 0) ∧
    ((2 ^ 32 - 8) + 16 > 8 * buffer_3.size_bytes ∧
      buffer_has_enouch_data (some buffer_3) (2 ^ 32 - 8) 16 = 0) := by
  decide

/-- C8: for a buffer that is there and `offset + to_get < 2 ^ 32`,
`buffer_has_enouch_data` returns 0 if `size_bytes >= (offset + to_get) / 8`
(rounded down) and -1 otherwise; on the empty buffer, offset 0 and 8 bits it
returns -1. -/
theorem buffer_has_enouch_data_formula (b : buffer_t) (offset to_get : Nat)
    (h : offset + to_get < 2 ^ 32) :
    (b.size_bytes ≥ (offset + to_get) / 8 → buffer_has_enouch_data (some b) offset to_get = 0) ∧
    (¬ b.size_bytes ≥ (offset + to_get) / 8 →
      buffer_has_enouch_data (some b) offset to_get = -1) ∧
    buffer_has_enouch_data (some empty_buffer) 0 8 = -1 := by
  simp only [buffer_has_enouch_data, Nat.mod_eq_of_lt h]
  refine ⟨fun hge => by rw [if_pos hge], fun hlt => by rw [if_neg hlt], by decide⟩

/-- C8 witness: 16 bits at offset 8 of the 3-byte buffer are there; 16 bits
at offset 8 of the 2-byte buffer are not. -/
theorem buffer_has_enouch_data_formula_witness :
    buffer_has_enouch_data (some buffer_3) 8 16 = 0 ∧
    buffer_has_enouch_data (some buffer_1234) 8 16 = -1 :=
  ⟨(buffer_has_enouch_data_formula buffer_3 8 16 (by decide)).1 (by decide),
   (buffer_has_enouch_data_formula buffer_1234 8 16 (by decide)).2.1 (by decide)⟩

/-! ## Return code of the bit fetch -/

theorem fetch_bits_temp_congr (b c : buffer_t) (offset : Nat) (h : b.data = c.data) :
    ∀ i, fetch_bits_temp b offset i = fetch_bits_temp c offset i := by
  intro i
  induction i with
  | zero => rfl
  | succ i ih => simp only [fetch_bits_temp, ih, load, h]

/-- The loop of `buffer_fetch_bits` is without a result only when one of its
rounds addresses a byte the storage does not have. -/
theorem fetch_bits_temp_none (b : buffer_t) (offset : Nat) :
    ∀ n, fetch_bits_temp b offset n = none →
      ∃ i, i < n ∧ load b ((offset + i) % 2 ^ 32 / 8) = none := by
  intro n
  induction n with
  | zero => intro h; cases h
  | succ n ih =>
    intro h
    cases hprev : fetch_bits_temp b offset n with
    | none =>
      obtain ⟨i, hi, hload⟩ := ih hprev
      exact ⟨i, by omega, hload⟩
    | some temp =>
      cases hload : load b ((offset + n) % 2 ^ 32 / 8) with
      | none => exact ⟨n, by omega, hload⟩
      | some byte =>
        simp only [fetch_bits_temp, hprev, hload] at h
        cases h

/-- C9 (as stated, refuted): with a buffer and a value pointer that are there
and `nbits = 1 <= 32` none of the three conditions of `RC_BAD_PARAM` holds, yet
the call does not return `RC_OK` with a packed result: on the empty buffer
(no storage) and on the 2-byte buffer at bit offset 16 the loop reads a byte
the storage does not have, and the call has no defined result. -/
theorem buffer_fetch_bits_reads_outside :
    ¬ ((some empty_buffer : Option buffer_t) = none ∨ (some 0 : Option Nat) = none ∨
        (32 : Int) < 1) ∧
    buffer_fetch_bits 0 (-1) (some empty_buffer) 0 1 (some 0) = { rc := none, value := none } ∧
    (buffer_fetch_bits 0 (-1) (some empty_buffer) 0 1 (some 0)).rc ≠ some 0 ∧
    buffer_fetch_bits 0 (-1) (some buffer_1234) 16 1 (some 0) = { rc := none, value := none } ∧
    (buffer_fetch_bits 0 (-1) (some buffer_1234) 16 1 (some 0)).rc ≠ some 0 := by
  decide

/-- C9 (amended): `buffer_fetch_bits` returns `RC_BAD_PARAM` exactly when the
buffer pointer is absent, the value pointer is absent or `nbits > 32`; its
result does not depend on `size_bytes`; in every other case in which the
storage has the bytes the loop addresses it returns `RC_OK` with the packed
result (bit `j < nbits` is the storage bit at the `uint32_t` position
`offset + j`, the other bits are 0), and so it does with the value 0 when
`nbits <= 0`; the call is without a return code only when a round reads a byte
the storage does not have. -/
theorem buffer_fetch_bits_rc (RC_OK RC_BAD_PARAM : Int) (hne : RC_OK ≠ RC_BAD_PARAM)
    (buffer : Option buffer_t) (offset : Nat) (nbits : Int) (value : Option Nat) :
    ((buffer_fetch_bits RC_OK RC_BAD_PARAM buffer offset nbits value).rc = some RC_BAD_PARAM ↔
      (buffer = none ∨ value = none ∨ 32 < nbits)) ∧
    (∀ b n, buffer_fetch_bits RC_OK RC_BAD_PARAM (some { b with size_bytes := n }) offset nbits
        value = buffer_fetch_bits RC_OK RC_BAD_PARAM (some b) offset nbits value) ∧
    (∀ b s v0, buffer = some b → value = some v0 → nbits ≤ 32 → b.data = some s →
      (∀ i, i < nbits.toNat → (offset + i) % 2 ^ 32 / 8 < s.length) →
      ∃ v, buffer_fetch_bits RC_OK RC_BAD_PARAM buffer offset nbits value
          = { rc := some RC_OK, value := some v } ∧
        ∀ j, v.testBit j
          = (decide (j < nbits.toNat) && storage_bit s ((offset + j) % 2 ^ 32))) ∧
    (∀ b v0, buffer = some b → value = some v0 → nbits ≤ 0 →
      buffer_fetch_bits RC_OK RC_BAD_PARAM buffer offset nbits value
        = { rc := some RC_OK, value := some 0 }) ∧
    ((buffer_fetch_bits RC_OK RC_BAD_PARAM buffer offset nbits value).rc = none →
      ∃ b, buffer = some b ∧
        ∃ i, i < nbits.toNat ∧ load b ((offset + i) % 2 ^ 32 / 8) = none) := by
  refine ⟨?_, ?_, ?_, ?_, ?_⟩
  · cases buffer with
    | none => simp [buffer_fetch_bits]
    | some b =>
      cases value with
      | none => simp [buffer_fetch_bits]
      | some v0 =>
        by_cases hbig : nbits > 32
        · simp [buffer_fetch_bits, hbig]
        · have hbig2 : ¬ 32 < nbits := hbig
          have hno : ¬ ((some b : Option buffer_t) = none ∨ (some v0 : Option Nat) = none ∨
              32 < nbits) := by
            rintro (h | h | h)
            · cases h
            · cases h
            · exact hbig2 h
          simp only [buffer_fetch_bits]
          rw [if_neg hbig]
          refine ⟨fun hrc => ?_, fun h => absurd h hno⟩
          cases htemp : fetch_bits_temp b offset nbits.toNat with
          | none =>
            rw [htemp] at hrc
            cases hrc
          | some temp =>
            rw [htemp] at hrc
            exact absurd (Option.some.inj hrc) hne
  · intro b n
    cases value with
    | none => rfl
    | some v0 =>
      simp only [buffer_fetch_bits]
      rw [fetch_bits_temp_congr { b with size_bytes := n } b offset rfl]
  · intro b s v0 hb hv hle hs hin
    subst hb hv
    obtain ⟨v, hv, hbits⟩ := fetch_bits_temp_testBit b s offset hs nbits.toNat (by omega) hin
    refine ⟨v, ?_, hbits⟩
    simp only [buffer_fetch_bits]
    rw [if_neg (by omega), hv]
  · intro b v0 hb hv hle
    subst hb hv
    have hzero : nbits.toNat = 0 := by omega
    simp only [buffer_fetch_bits]
    rw [if_neg (by omega), hzero]
    rfl
  · intro hnone
    cases buffer with
    | none => simp [buffer_fetch_bits] at hnone
    | some b =>
      cases value with
      | none => simp [buffer_fetch_bits] at hnone
      | some v0 =>
        by_cases hbig : nbits > 32
        · simp [buffer_fetch_bits, hbig] at hnone
        · simp only [buffer_fetch_bits, if_neg hbig] at hnone
          cases htemp : fetch_bits_temp b offset nbits.toNat with
          | none => exact ⟨b, rfl, fetch_bits_temp_none b offset _ htemp⟩
          | some temp =>
            rw [htemp] at hnone
            cases hnone

/-- C9 witness: with the codes 0 and -1, 33 bits are refused, and 12 bits of the
bytes `0x12, 0x34` from bit 4 on are fetched although `size_bytes` says 0. -/
theorem buffer_fetch_bits_rc_witness :
    (buffer_fetch_bits 0 (-1) (some buffer_1234) 4 33 (some 0)).rc = some (-1) ∧
    ∃ v, buffer_fetch_bits 0 (-1) (some { buffer_1234 with size_bytes := 0 }) 4 12 (some 0)
        = { rc := some 0, value := some v } ∧
      ∀ j, v.testBit j
        = (decide (j < (12 : Int).toNat) && storage_bit [0x12, 0x34] ((4 + j) % 2 ^ 32)) :=
  ⟨(buffer_fetch_bits_rc 0 (-1) (by decide) (some buffer_1234) 4 33 (some 0)).1.mpr
      (Or.inr (Or.inr (by decide))),
   (buffer_fetch_bits_rc 0 (-1) (by decide) (some { buffer_1234 with size_bytes := 0 }) 4 12
      (some 0)).2.2.1 { buffer_1234 with size_bytes := 0 } [0x12, 0x34] 0 rfl rfl (by decide) rfl
      (by
        intro i hi
        have hi2 : i < 12 := hi
        have hlen : ([0x12, 0x34] : List uint8_t).length = 2 := rfl
        rw [hlen]
        omega)⟩

/-! ## Append -/

theorem determined_map_some (bytes : List uint8_t) : determined (bytes.map some) = some bytes := by
  induction bytes with
  | nil => rfl
  | cons byte rest ih => simp [determined, ih]

/-- One append of a non-empty array to a buffer whose storage, if any, holds its
`size_bytes` bytes, the new size fitting 32 bits: code 0, and the buffer
holds its valid bytes followed by the array, with the cursor at byte 0. -/
theorem buffer_append_data_step (b : buffer_t) (src : List uint8_t) (hsrc : src ≠ [])
    (hback : ∀ s, b.data = some s → b.size_bytes ≤ s.length)
    (hfit : (valid_bytes b).length + src.length < 2 ^ 32) :
    buffer_append_data (some b) (some src) src.length
      = (0, some { size_bytes := (valid_bytes b).length + src.length
                   data := some (valid_bytes b ++ src)
                   buffer_current := some 0 }) := by
  have hpos : src.length > 0 := List.length_pos.mpr hsrc
  cases hd : b.data with
  | none =>
    have hcopy : memcpy_into (malloc src.length) 0 src src.length = some (src.map some) := by
      simp [memcpy_into, malloc]
    simp only [buffer_append_data, hd, valid_bytes]
    rw [if_pos hpos, hcopy]
    simp [determined_map_some]
  | some old =>
    have hle := hback old hd
    have hv : valid_bytes b = old.take b.size_bytes := by simp only [valid_bytes, hd]
    have hvl : (valid_bytes b).length = b.size_bytes := by
      rw [hv, List.length_take]
      omega
    rw [hvl] at hfit
    have hmod : (b.size_bytes + src.length) % 2 ^ 32 = b.size_bytes + src.length :=
      Nat.mod_eq_of_lt hfit
    have hblock : (realloc old (b.size_bytes + src.length)).length
        = b.size_bytes + src.length := by
      simp only [realloc, List.length_append, List.length_map, List.length_take,
        List.length_replicate]
      omega
    have htake : (realloc old (b.size_bytes + src.length)).take b.size_bytes
        = (old.take b.size_bytes).map some := by
      simp only [realloc]
      rw [List.take_append_of_le_length (by
        rw [List.length_map, List.length_take]
        omega), ← List.map_take, List.take_take]
      congr 2
      omega
    have hcopy : memcpy_into (realloc old (b.size_bytes + src.length)) b.size_bytes src
        src.length = some ((old.take b.size_bytes ++ src).map some) := by
      simp only [memcpy_into]
      rw [if_pos ⟨by omega, Nat.le_refl _⟩, htake, List.take_length,
        List.drop_eq_nil_of_le (by omega), List.append_nil, List.map_append]
    simp only [buffer_append_data, hd, hmod]
    rw [if_pos hpos, hcopy, hvl, hv]
    simp only [Option.some_bind, determined_map_some, Option.map_some']

theorem length_realloc (old : List uint8_t) (n : Nat) : (realloc old n).length = n := by
  simp only [realloc, List.length_append, List.length_map, List.length_take,
    List.length_replicate]
  omega

/-- An append whose new size does not fit 32 bits: the size given to `realloc`
wraps, the copy leaves the reallocated block, and the call returns 0 without a
determined buffer. -/
theorem buffer_append_data_overflow (b : buffer_t) (s src : List uint8_t) (n : Nat)
    (hs : b.data = some s) (hn : 0 < n) (hwrap : 2 ^ 32 ≤ b.size_bytes + n) :
    buffer_append_data (some b) (some src) n = (0, none) := by
  have hcopy : memcpy_into (realloc s ((b.size_bytes + n) % 2 ^ 32)) b.size_bytes src n
      = none := by
    simp only [memcpy_into]
    rw [if_neg]
    rintro ⟨h1, -⟩
    rw [length_realloc] at h1
    omega
  simp only [buffer_append_data, hs]
  rw [if_pos hn, hcopy]
  rfl

/-- An append of a non-empty array to a buffer without storage. -/
theorem buffer_append_data_fresh (b : buffer_t) (src : List uint8_t) (hsrc : src ≠ [])
    (hd : b.data = none) :
    buffer_append_data (some b) (some src) src.length
      = (0, some { size_bytes := src.length, data := some src, buffer_current := some 0 }) := by
  have hpos : src.length > 0 := List.length_pos.mpr hsrc
  have hcopy : memcpy_into (malloc src.length) 0 src src.length = some (src.map some) := by
    simp [memcpy_into, malloc]
  simp only [buffer_append_data, hd]
  rw [if_pos hpos, hcopy]
  simp only [Option.some_bind, determined_map_some, Option.map_some']

/-- C10 (as stated, refuted): on the buffer of `2 ^ 32 - 1` bytes (its storage
holding them all) with the non-empty sequences `A = [1]` and `B = [2]`, the one
append of `A ++ B` returns 0 but leaves no buffer at all: the `uint32_t` size
`size_bytes + 2` given to `realloc` wraps to 1 and the copy leaves the block;
so the two ways do not end with the same bytes and `size_bytes`. -/
theorem buffer_append_data_assoc_wraps :
    full_buffer.data.map List.length = some full_buffer.size_bytes ∧
    ([1] : List uint8_t) ≠ [] ∧ ([2] : List uint8_t) ≠ [] ∧
    buffer_append_data (some full_buffer) (some ([1] ++ [2])) ([1] ++ [2] : List uint8_t).length
      = (0, none) ∧
    ¬ append_assoc_claim full_buffer [1] [2] := by
  have hs : full_buffer.data = some (List.replicate (2 ^ 32 - 1) (0 : uint8_t)) := rfl
  have hsize : full_buffer.size_bytes = 2 ^ 32 - 1 := rfl
  have hover : buffer_append_data (some full_buffer) (some ([1] ++ [2]))
      ([1] ++ [2] : List uint8_t).length = (0, none) :=
    buffer_append_data_overflow full_buffer _ _ _ hs (by decide) (by rw [hsize]; decide)
  refine ⟨?_, by decide, by decide, hover, ?_⟩
  · rw [hs, hsize, Option.map_some', List.length_replicate]
  · rintro ⟨twice, once, -, honce, -⟩
    rw [hover] at honce
    cases honce

/-- C10 (amended): for a buffer with or without storage (a storage holding the
`size_bytes` bytes) and two non-empty byte sequences `A` and `B` with
`size_bytes + |A| + |B| < 2 ^ 32` (`|A| + |B| < 2 ^ 32` without storage),
appending `A` and then `B` leaves the same buffer (same bytes, same
`size_bytes`, same cursor) as appending `A ++ B` once: the valid bytes followed
by `A` and `B`. -/
theorem buffer_append_data_assoc (b : buffer_t) (A B : List uint8_t) (hA : A ≠ [])
    (hB : B ≠ []) (hback : ∀ s, b.data = some s → b.size_bytes ≤ s.length)
    (hfit : (valid_bytes b).length + A.length + B.length < 2 ^ 32) :
    buffer_append_data (buffer_append_data (some b) (some A) A.length).2 (some B) B.length
      = buffer_append_data (some b) (some (A ++ B)) (A ++ B).length ∧
    buffer_append_data (some b) (some (A ++ B)) (A ++ B).length
      = (0, some { size_bytes := (valid_bytes b).length + A.length + B.length
                   data := some (valid_bytes b ++ A ++ B)
                   buffer_current := some 0 }) ∧
    append_assoc_claim b A B := by
  have hAB : A ++ B ≠ [] := by simp [hA]
  have hone := buffer_append_data_step b (A ++ B) hAB hback
    (by rw [List.length_append]; omega)
  have hfirst := buffer_append_data_step b A hA hback (by omega)
  have hmid : valid_bytes { size_bytes := (valid_bytes b).length + A.length
                            data := some (valid_bytes b ++ A)
                            buffer_current := some 0 } = valid_bytes b ++ A := by
    simp only [valid_bytes]
    rw [← List.length_append, List.take_length]
  have hsecond := buffer_append_data_step
    { size_bytes := (valid_bytes b).length + A.length
      data := some (valid_bytes b ++ A)
      buffer_current := some 0 } B hB
    (by
      intro s hs
      simp only [Option.some.injEq] at hs
      rw [← hs, List.length_append])
    (by rw [hmid, List.length_append]; omega)
  rw [hmid] at hsecond
  have hsame : buffer_append_data (buffer_append_data (some b) (some A) A.length).2 (some B)
      B.length = buffer_append_data (some b) (some (A ++ B)) (A ++ B).length := by
    rw [hfirst, hsecond, hone]
    simp [List.length_append, Nat.add_assoc]
  have hexplicit : buffer_append_data (some b) (some (A ++ B)) (A ++ B).length
      = (0, some { size_bytes := (valid_bytes b).length + A.length + B.length
                   data := some (valid_bytes b ++ A ++ B)
                   buffer_current := some 0 }) := by
    rw [hone]
    simp [List.length_append, Nat.add_assoc]
  refine ⟨hsame, hexplicit,
    { size_bytes := (valid_bytes b).length + A.length + B.length
      data := some (valid_bytes b ++ A ++ B)
      buffer_current := some 0 },
    { size_bytes := (valid_bytes b).length + A.length + B.length
      data := some (valid_bytes b ++ A ++ B)
      buffer_current := some 0 }, ?_, ?_, rfl, rfl⟩
  · rw [hsame, hexplicit]
  · rw [hexplicit]

/-- C10 witness: `0xAA` and then `0xBB, 0xCC` appended to the 3-byte buffer. -/
theorem buffer_append_data_assoc_witness :
    buffer_append_data (buffer_append_data (some buffer_3) (some [0xAA]) 1).2
        (some [0xBB, 0xCC]) 2
      = buffer_append_data (some buffer_3) (some [0xAA, 0xBB, 0xCC]) 3 ∧
    buffer_append_data (some buffer_3) (some [0xAA, 0xBB, 0xCC]) 3
      = (0, some { size_bytes := 6
                   data := some [0x11, 0x22, 0x33, 0xAA, 0xBB, 0xCC]
                   buffer_current := some 0 }) ∧
    append_assoc_claim buffer_3 [0xAA] [0xBB, 0xCC] :=
  buffer_append_data_assoc buffer_3 [0xAA] [0xBB, 0xCC] (by decide) (by decide)
    (by decide) (by decide)

/-- C11 (as stated, refuted): one byte appended to the buffer of `2 ^ 32 - 1`
bytes (its storage holding them all): the call returns 0, but the `uint32_t`
size `size_bytes + 1` given to `realloc` wraps to 0 and the copy leaves the
block, so afterwards there is no buffer that holds the previous bytes followed
by the new one with `size_bytes` raised by 1. -/
theorem buffer_append_data_wraps :
    full_buffer.data.map List.length = some full_buffer.size_bytes ∧
    ([1] : List uint8_t) ≠ [] ∧
    buffer_append_data (some full_buffer) (some [1]) ([1] : List uint8_t).length = (0, none) ∧
    ¬ append_claim full_buffer [1] := by
  have hs : full_buffer.data = some (List.replicate (2 ^ 32 - 1) (0 : uint8_t)) := rfl
  have hsize : full_buffer.size_bytes = 2 ^ 32 - 1 := rfl
  have hover : buffer_append_data (some full_buffer) (some [1]) ([1] : List uint8_t).length
      = (0, none) :=
    buffer_append_data_overflow full_buffer _ _ _ hs (by decide) (by rw [hsize]; decide)
  refine ⟨?_, by decide, hover, ?_⟩
  · rw [hs, hsize, Option.map_some', List.length_replicate]
  · rintro ⟨after, hafter, -⟩
    rw [hover] at hafter
    cases hafter

/-- C11 (amended): for a buffer and a non-empty array `data` of `length` bytes,
with `size_bytes + length < 2 ^ 32` when the buffer has storage (a storage
holding the `size_bytes` bytes), `buffer_append_data` returns 0 and leaves a
buffer whose storage is the previous `size_bytes` bytes followed by the bytes
of `data`, whose `size_bytes` is the previous value plus `length` (just the
array and `length` when the buffer had no storage), and whose cursor is at
byte 0. -/
theorem buffer_append_data_extends (b : buffer_t) (data : List uint8_t) (hdata : data ≠ []) :
    (b.data = none →
      buffer_append_data (some b) (some data) data.length
        = (0, some { size_bytes := data.length
                     data := some data
                     buffer_current := some 0 }) ∧
      append_claim b data) ∧
    (∀ s, b.data = some s → b.size_bytes ≤ s.length → b.size_bytes + data.length < 2 ^ 32 →
      buffer_append_data (some b) (some data) data.length
        = (0, some { size_bytes := b.size_bytes + data.length
                     data := some (s.take b.size_bytes ++ data)
                     buffer_current := some 0 }) ∧
      append_claim b data) := by
  constructor
  · intro hd
    have h := buffer_append_data_fresh b data hdata hd
    refine ⟨h, _, h, ?_, ?_, rfl⟩
    · simp only [valid_bytes, hd, List.nil_append]
    · simp only [hd]
  · intro s hd hle hfit
    have hv : valid_bytes b = s.take b.size_bytes := by simp only [valid_bytes, hd]
    have hvl : (valid_bytes b).length = b.size_bytes := by
      rw [hv, List.length_take]
      omega
    have h := buffer_append_data_step b data hdata
      (by intro s2 hs2; rw [hd] at hs2; cases hs2; exact hle) (by rw [hvl]; exact hfit)
    rw [hvl, hv] at h
    refine ⟨h, _, h, ?_, ?_, rfl⟩
    · rw [hv]
    · simp only [hd]

/-- C11 witness: two bytes appended to the 3-byte buffer and to the empty
buffer. -/
theorem buffer_append_data_extends_witness :
    buffer_append_data (some empty_buffer) (some [0xAA, 0xBB]) 2
      = (0, some { size_bytes := 2, data := some [0xAA, 0xBB], buffer_current := some 0 }) ∧
    buffer_append_data (some buffer_3) (some [0xAA, 0xBB]) 2
      = (0, some { size_bytes := 5
                   data := some [0x11, 0x22, 0x33, 0xAA, 0xBB]
                   buffer_current := some 0 }) :=
  ⟨((buffer_append_data_extends empty_buffer [0xAA, 0xBB] (by decide)).1 rfl).1,
   ((buffer_append_data_extends buffer_3 [0xAA, 0xBB] (by decide)).2 [0x11, 0x22, 0x33] rfl
      (by decide) (by decide)).1⟩

/-! ## Construction -/

/-- Without data, or with `length = 0`, the created buffer has `size_bytes`
equal to `length` and no cursor; its `data` field is never assigned. -/
theorem buffer_new_from_data_without_data (RC_BAD_PARAM : Int) (uninit : buffer_t)
    (previous : Option buffer_t) (data : Option (List uint8_t)) (length : Nat)
    (data_static : Int) (h : data = none ∨ length = 0) :
    buffer_new_from_data RC_BAD_PARAM uninit (some previous) data length data_static
      = (0, some { size_bytes := length, data := uninit.data, buffer_current := none }) := by
  cases data with
  | none => rfl
  | some src =>
    have hl : length = 0 := by
      cases h with
      | inl h => cases h
      | inr h => exact h
    subst hl
    rfl

/-- C12 (the code at the failing input): called without data and with
`length = 5`, `buffer_new_from_data` returns 0 and creates a buffer with no
cursor whose `size_bytes` is 5, not 0, whatever `data_static` is; its `data`
field keeps the indeterminate content of the allocation. -/
theorem buffer_new_from_data_keeps_length (RC_BAD_PARAM : Int) (uninit : buffer_t)
    (previous : Option buffer_t) (data_static : Int) :
    buffer_new_from_data RC_BAD_PARAM uninit (some previous) none 5 data_static
      = (0, some { size_bytes := 5, data := uninit.data, buffer_current := none }) ∧
    (buffer_new_from_data RC_BAD_PARAM uninit (some previous) none 5 data_static).2.map
        (fun created => (created.size_bytes, created.buffer_current))
      = some (5, none) :=
  ⟨rfl, rfl⟩

/-- A copying construction from a non-empty array of `length` bytes. -/
theorem buffer_new_from_data_copy (RC_BAD_PARAM : Int) (uninit : buffer_t)
    (previous : Option buffer_t) (data : List uint8_t) (hdata : data ≠ []) :
    buffer_new_from_data RC_BAD_PARAM uninit (some previous) (some data) data.length 0
      = (0, some { size_bytes := data.length, data := some data, buffer_current := some 0 }) := by
  have hpos : data.length > 0 := List.length_pos.mpr hdata
  have hcopy : memcpy_into (malloc data.length) 0 data data.length = some (data.map some) := by
    simp [memcpy_into, malloc]
  simp only [buffer_new_from_data]
  rw [if_pos hpos, if_pos trivial, hcopy]
  simp only [Option.some_bind, determined_map_some, Option.map_some']

theorem from_bytes_singleton (host : byte_order) (byte : uint8_t) :
    from_bytes host [byte] = byte.val := by
  cases host <;> simp [from_bytes, from_little]

/-- C13: for a non-empty array `data` of `n < 2 ^ 29` bytes,
`buffer_new_from_data(data, n, 0)` returns 0 and creates a buffer with
`size_bytes = n` and the cursor at byte 0, from which `buffer_fetch_nbytes` at
offset 0 with `n_bytes = n` returns 0 and yields `data`, and
`buffer_get_uint8_t` at bit offset `8 * i` returns `data[i]` for `i < n`. -/
theorem buffer_new_from_data_round_trip (RC_BAD_PARAM : Int) (uninit : buffer_t)
    (previous : Option buffer_t) (data : List uint8_t) (hdata : data ≠ [])
    (hn : data.length < 2 ^ 29) :
    ∃ b, buffer_new_from_data RC_BAD_PARAM uninit (some previous) (some data) data.length 0
        = (0, some b) ∧
      b.size_bytes = data.length ∧ b.buffer_current = some 0 ∧
      (∀ dst : List uint8_t, data.length ≤ dst.length →
        buffer_fetch_nbytes b 0 data.length dst
          = { rc := 0
              value := some (data ++ dst.drop data.length)
              reads := some (0, data.length) }) ∧
      (∀ host junk i, i < data.length →
        (buffer_get_uint8_t host junk (some b) (8 * i)).1 = (data[i]?).map Fin.val) := by
  refine ⟨{ size_bytes := data.length, data := some data, buffer_current := some 0 },
    buffer_new_from_data_copy RC_BAD_PARAM uninit previous data hdata, rfl, rfl, ?_, ?_⟩
  · intro dst hdst
    have hu : to_uint32 (data.length : Int) = data.length := by
      rw [to_uint32_of_nonneg _ (by omega) (by omega), Int.toNat_ofNat]
    have hz : to_size_t (data.length : Int) = data.length := by
      rw [to_size_t_of_nonneg _ (by omega) (by omega), Int.toNat_ofNat]
    have h0 : (0 : Nat) >>> 3 = 0 := by decide
    simp only [buffer_fetch_nbytes, hu, hz, h0, Nat.zero_add]
    rw [if_neg (by rw [Nat.mod_eq_of_lt (by omega)]; omega)]
    simp only [memcpy]
    rw [if_pos ⟨by omega, hdst⟩, List.drop_zero, List.take_length]
  · intro host junk i hi
    have hshift : (8 * i) >>> 3 = i := by
      rw [Nat.shiftRight_eq_div_pow]
      omega
    have hclaim := get_claim_of_fetch buffer_get_uint8_t 1 1 (fun _ _ _ _ => rfl) (by decide)
      (by decide) (by decide) (by decide)
      { size_bytes := data.length, data := some data, buffer_current := some 0 } data (8 * i)
      rfl (Nat.le_refl _) (by omega) (by rw [hshift]; exact hi)
    rw [(hclaim host junk).1, hshift, List.drop_eq_getElem_cons hi, List.take_succ_cons,
      List.take_zero, from_bytes_singleton, List.getElem?_eq_getElem hi]
    rfl

/-- C13 witness: the three bytes `0x11, 0x22, 0x33`. -/
theorem buffer_new_from_data_round_trip_witness :
    ∃ b, buffer_new_from_data (-2) empty_buffer (some none) (some [0x11, 0x22, 0x33])
        [(0x11 : uint8_t), 0x22, 0x33].length 0 = (0, some b) ∧
      b.size_bytes = [(0x11 : uint8_t), 0x22, 0x33].length ∧ b.buffer_current = some 0 ∧
      (∀ dst : List uint8_t, [(0x11 : uint8_t), 0x22, 0x33].length ≤ dst.length →
        buffer_fetch_nbytes b 0 [(0x11 : uint8_t), 0x22, 0x33].length dst
          = { rc := 0
              value := some ([0x11, 0x22, 0x33] ++ dst.drop [(0x11 : uint8_t), 0x22, 0x33].length)
              reads := some (0, [(0x11 : uint8_t), 0x22, 0x33].length) }) ∧
      (∀ host junk i, i < [(0x11 : uint8_t), 0x22, 0x33].length →
        (buffer_get_uint8_t host junk (some b) (8 * i)).1
          = ([(0x11 : uint8_t), 0x22, 0x33][i]?).map Fin.val) :=
  buffer_new_from_data_round_trip (-2) empty_buffer none [0x11, 0x22, 0x33] (by decide)
    (by decide)

/-- Where `size_bytes` is the number of bytes backing the storage, an append
of a non-empty array (sizes fitting 32 bits) and a fixed-width fetch keep it
so; a copying construction from a non-empty array establishes it. -/
theorem size_bytes_backed_kept (b : buffer_t) (hinv : b.size_bytes = backing_bytes b) :
    (∀ src : List uint8_t, src ≠ [] → b.size_bytes + src.length < 2 ^ 32 →
      ∃ after, buffer_append_data (some b) (some src) src.length = (0, some after) ∧
        after.size_bytes = backing_bytes after) ∧
    (∀ offset size dst after, (buffer_fetch (some b) offset size (some dst)).buffer = some after →
      after.size_bytes = backing_bytes after) ∧
    (∀ RC_BAD_PARAM uninit previous (data : List uint8_t), data ≠ [] →
      ∃ created, buffer_new_from_data RC_BAD_PARAM uninit (some previous) (some data)
          data.length 0 = (0, some created) ∧
        created.size_bytes = backing_bytes created) := by
  refine ⟨?_, ?_, ?_⟩
  · intro src hsrc hfit
    have hback : ∀ s, b.data = some s → b.size_bytes ≤ s.length := by
      intro s hs
      rw [hinv]
      simp only [backing_bytes, hs]
      exact Nat.le_refl _
    have hvl : (valid_bytes b).length = b.size_bytes := by
      cases hd : b.data with
      | none =>
        rw [hinv]
        simp only [valid_bytes, backing_bytes, hd, List.length_nil]
      | some s =>
        have := hback s hd
        simp only [valid_bytes, hd, List.length_take]
        omega
    refine ⟨_, buffer_append_data_step b src hsrc hback (by rw [hvl]; exact hfit), ?_⟩
    simp only [backing_bytes, List.length_append]
  · intro offset size dst after h
    simp only [buffer_fetch] at h
    split_ifs at h
    · cases h
      exact hinv
    · cases h
      exact hinv
    · cases h
      simpa only [backing_bytes] using hinv
  · intro RC_BAD_PARAM uninit previous data hdata
    exact ⟨_, buffer_new_from_data_copy RC_BAD_PARAM uninit previous data hdata, rfl⟩

/-- C14 (the code at the failing input): `buffer_new_from_data` called without
data and with `length = 5` (the allocation holding zeroes) creates a buffer
whose `size_bytes` is 5 while no byte backs its storage; a later 4-byte fetch
at offset 0 passes the bound test, hands `memcpy` a range of that storage and
returns 0 with an indeterminate destination, and the mismatch stays. -/
theorem buffer_new_from_data_breaks_invariant :
    buffer_new_from_data (-2) empty_buffer (some none) none 5 0
      = (0, some { size_bytes := 5, data := none, buffer_current := none }) ∧
    backing_bytes { size_bytes := 5, data := none, buffer_current := none } = 0 ∧
    buffer_fetch (some { size_bytes := 5, data := none, buffer_current := none }) 0 4
        (some [0, 0, 0, 0])
      = { rc := 0
          buffer := some { size_bytes := 5, data := none, buffer_current := some 4 }
          value := none
          reads := some (0, 4) } ∧
    (5 : Nat) ≠ backing_bytes { size_bytes := 5, data := none, buffer_current := some 4 } := by
  decide

/-! ## Bit fetch and single-bit reads -/

/-- A single-bit read at the `uint32_t` position `p` yields the storage bit
there as the value 0 or 1. -/
theorem fetch_single_bit (RC_OK RC_BAD_PARAM : Int) (b : buffer_t) (p : Nat) (byte : uint8_t)
    (hp : p < 2 ^ 32) (hload : load b (p / 8) = some byte) :
    (buffer_fetch_bits RC_OK RC_BAD_PARAM (some b) p 1 (some 0)).value
      = some ((byte.val >>> (p % 8)) &&& 1) := by
  have hone : (1 : Int).toNat = 1 := rfl
  have hmod : (p + 0) % 2 ^ 32 = p := by rw [Nat.add_zero, Nat.mod_eq_of_lt hp]
  have hlt : (byte.val >>> (p % 8)) &&& 1 < 2 ^ 32 := by
    have h2 : (byte.val >>> (p % 8)) &&& 1 ≤ 1 := Nat.and_le_right
    omega
  simp only [buffer_fetch_bits]
  rw [if_neg (by decide), hone]
  simp only [fetch_bits_temp, hmod, hload, Nat.zero_or, Nat.shiftLeft_zero]
  rw [Nat.mod_eq_of_lt hlt]

/-- The value rebuilt from single-bit reads is the `temp` of the loop, round
by round, as long as the bytes addressed are in the storage. -/
theorem rebuilt_eq_temp (RC_OK RC_BAD_PARAM : Int) (b : buffer_t) (s : List uint8_t)
    (offset : Nat) (hs : b.data = some s) :
    ∀ n, n ≤ 32 → (∀ i, i < n → (offset + i) % 2 ^ 32 / 8 < s.length) →
      rebuilt_from_bits RC_OK RC_BAD_PARAM b offset n = fetch_bits_temp b offset n := by
  intro n
  induction n with
  | zero => intro _ _; rfl
  | succ n ih =>
    intro hn hin
    have hprev := ih (by omega) (fun i hi => hin i (by omega))
    obtain ⟨v, hv, hbits⟩ :=
      fetch_bits_temp_testBit b s offset hs n (by omega) (fun i hi => hin i (by omega))
    have hlt := hin n (by omega)
    obtain ⟨byte, hbyte⟩ : ∃ byte, s[(offset + n) % 2 ^ 32 / 8]? = some byte :=
      ⟨_, List.getElem?_eq_getElem hlt⟩
    have hload : load b ((offset + n) % 2 ^ 32 / 8) = some byte := by
      simp only [load, hs, hbyte]
    have hsingle := fetch_single_bit RC_OK RC_BAD_PARAM b ((offset + n) % 2 ^ 32) byte
      (Nat.mod_lt _ (by norm_num)) hload
    have hvlt : v < 2 ^ n := by
      apply Nat.lt_pow_two_of_testBit
      intro i hi
      rw [hbits i]
      have : ¬ i < n := by omega
      simp [this]
    have hbit : ((byte.val >>> ((offset + n) % 2 ^ 32 % 8)) &&& 1) <<< n < 2 ^ (n + 1) := by
      have h2 : (byte.val >>> ((offset + n) % 2 ^ 32 % 8)) &&& 1 ≤ 1 := Nat.and_le_right
      calc ((byte.val >>> ((offset + n) % 2 ^ 32 % 8)) &&& 1) <<< n
          = ((byte.val >>> ((offset + n) % 2 ^ 32 % 8)) &&& 1) * 2 ^ n := Nat.shiftLeft_eq _ _
        _ ≤ 1 * 2 ^ n := Nat.mul_le_mul_right _ h2
        _ = 2 ^ n := Nat.one_mul _
        _ < 2 ^ (n + 1) := Nat.pow_lt_pow_succ (by decide)
    have hor : v ||| ((byte.val >>> ((offset + n) % 2 ^ 32 % 8)) &&& 1) <<< n < 2 ^ 32 := by
      have h1 : v < 2 ^ (n + 1) := Nat.lt_of_lt_of_le hvlt (Nat.pow_le_pow_right (by decide) (by omega))
      have h2 := Nat.or_lt_two_pow h1 hbit
      exact Nat.lt_of_lt_of_le h2 (Nat.pow_le_pow_right (by decide) hn)
    simp only [rebuilt_from_bits, fetch_bits_temp, hprev, hv, hsingle, hload]
    rw [Nat.mod_eq_of_lt hor]

/-- C15: for a buffer whose storage holds its `size_bytes` bytes, an offset and
`n` with `1 <= n <= 32` and `offset + n <= 8 * size_bytes`,
`buffer_fetch_bits(offset, n)` returns `RC_OK` with a value equal to the value
rebuilt from single-bit reads: the OR over `i < n` of the value of
`buffer_fetch_bits(offset + i, 1)` shifted left by `i`. -/
theorem buffer_fetch_bits_eq_single_bits (RC_OK RC_BAD_PARAM : Int) (b : buffer_t)
    (s : List uint8_t) (offset n v0 : Nat) (hs : b.data = some s)
    (hlen : b.size_bytes ≤ s.length) (h1 : 1 ≤ n) (h32 : n ≤ 32)
    (hb : offset + n ≤ 8 * b.size_bytes) :
    ∃ v, buffer_fetch_bits RC_OK RC_BAD_PARAM (some b) offset n (some v0)
        = { rc := some RC_OK, value := some v } ∧
      rebuilt_from_bits RC_OK RC_BAD_PARAM b offset n = some v := by
  have hin : ∀ i, i < n → (offset + i) % 2 ^ 32 / 8 < s.length := by
    intro i hi
    have hle : (offset + i) % 2 ^ 32 ≤ offset + i := Nat.mod_le _ _
    omega
  obtain ⟨v, hv, -⟩ := fetch_bits_temp_testBit b s offset hs n h32 hin
  refine ⟨v, ?_, ?_⟩
  · simp only [buffer_fetch_bits]
    rw [if_neg (by omega), Int.toNat_ofNat, hv]
  · rw [rebuilt_eq_temp RC_OK RC_BAD_PARAM b s offset hs n h32 hin, hv]

/-- C15 witness: 12 bits from bit 4 of the bytes `0x12, 0x34`. -/
theorem buffer_fetch_bits_eq_single_bits_witness :
    ∃ v, buffer_fetch_bits 0 (-1) (some buffer_1234) 4 ((12 : Nat) : Int) (some 0)
        = { rc := some 0, value := some v } ∧
      rebuilt_from_bits 0 (-1) buffer_1234 4 12 = some v :=
  buffer_fetch_bits_eq_single_bits 0 (-1) buffer_1234 [0x12, 0x34] 4 12 0 rfl (by decide)
    (by decide) (by decide) (by decide)

/-! ## Cursor and agreement of the bound tests -/

/-- C16: for a buffer, an offset and a width `size` in 1, 2, 4, 8, a
fixed-width fetch returns 0 or -1; when it returns 0 the buffer afterwards is
the buffer before with the cursor at byte `(offset >> 3) + size` (storage and
`size_bytes` as they were), and when it returns -1 the buffer afterwards is the
buffer before, cursor included. -/
theorem buffer_fetch_cursor (b : buffer_t) (dst : List uint8_t) (offset : Nat) (size : Nat)
    (ho : offset < 2 ^ 32) (hsize : size = 1 ∨ size = 2 ∨ size = 4 ∨ size = 8) :
    ((buffer_fetch (some b) offset size (some dst)).rc = 0 ∨
      (buffer_fetch (some b) offset size (some dst)).rc = -1) ∧
    ((buffer_fetch (some b) offset size (some dst)).rc = 0 →
      (buffer_fetch (some b) offset size (some dst)).buffer
        = some { size_bytes := b.size_bytes
                 data := b.data
                 buffer_current := some ((offset >>> 3) + size) }) ∧
    ((buffer_fetch (some b) offset size (some dst)).rc = -1 →
      (buffer_fetch (some b) offset size (some dst)).buffer = some b) := by
  have hpos : (0 : Int) < size := by omega
  have hmax : (size : Int) < 2 ^ 31 := by omega
  have hu : to_uint32 (size : Int) = size := by
    rw [to_uint32_of_nonneg _ (by omega) hmax, Int.toNat_ofNat]
  have hz : to_size_t (size : Int) = size := by
    rw [to_size_t_of_nonneg _ (by omega) hmax, Int.toNat_ofNat]
  by_cases hshort : b.size_bytes < (offset >>> 3) + size
  · rw [buffer_fetch_short b offset size size dst hu ho (by omega) hshort]
    simp
  · rw [buffer_fetch_pass b offset size size dst hpos hu hz ho (by omega) (by omega)]
    simp

/-- C16 witness: a 2-byte fetch at bit offset 0 of the bytes `0x12, 0x34` moves
the cursor to byte 2. -/
theorem buffer_fetch_cursor_witness :
    (buffer_fetch (some buffer_1234) 0 ((2 : Nat) : Int) (some [0, 0])).buffer
      = some { size_bytes := buffer_1234.size_bytes
               data := buffer_1234.data
               buffer_current := some ((0 >>> 3) + 2) } :=
  (buffer_fetch_cursor buffer_1234 [0, 0] 0 2 (by decide) (by decide)).2.1 (by decide)

/-- C19: for a buffer (there or not), a destination that is there, a width
`size` in 1, 2, 4, 8 and an offset with `offset + 8 * size < 2 ^ 32`,
`buffer_has_enouch_data(buffer, offset, 8 * size)` returns 0 exactly when
`buffer_fetch(buffer, offset, size, dest)` returns 0. -/
theorem bound_tests_agree_on_bytes (buffer : Option buffer_t) (dst : List uint8_t)
    (offset size : Nat) (hsize : size = 1 ∨ size = 2 ∨ size = 4 ∨ size = 8)
    (hfit : offset + 8 * size < 2 ^ 32) :
    buffer_has_enouch_data buffer offset (8 * size) = 0 ↔
      (buffer_fetch buffer offset size (some dst)).rc = 0 := by
  cases buffer with
  | none => simp [buffer_has_enouch_data, buffer_fetch]
  | some b =>
    have ho : offset < 2 ^ 32 := by omega
    have hpos : (0 : Int) < size := by omega
    have hmax : (size : Int) < 2 ^ 31 := by omega
    have hu : to_uint32 (size : Int) = size := by
      rw [to_uint32_of_nonneg _ (by omega) hmax, Int.toNat_ofNat]
    have hz : to_size_t (size : Int) = size := by
      rw [to_size_t_of_nonneg _ (by omega) hmax, Int.toNat_ofNat]
    have hshift : offset >>> 3 = offset / 8 := by
      rw [Nat.shiftRight_eq_div_pow]
    have hdiv : (offset + 8 * size) % 2 ^ 32 / 8 = offset / 8 + size := by
      rw [Nat.mod_eq_of_lt hfit]
      omega
    simp only [buffer_has_enouch_data, hdiv]
    by_cases hshort : b.size_bytes < (offset >>> 3) + size
    · rw [buffer_fetch_short b offset size size dst hu ho (by omega) hshort,
        if_neg (by omega)]
    · rw [buffer_fetch_pass b offset size size dst hpos hu hz ho (by omega) (by omega),
        if_pos (by omega)]

/-- C19 witness: 16 bits at bit offset 8 of the 3-byte buffer. -/
theorem bound_tests_agree_on_bytes_witness :
    buffer_has_enouch_data (some buffer_3) 8 (8 * 2) = 0 ↔
      (buffer_fetch (some buffer_3) 8 ((2 : Nat) : Int) (some [0, 0])).rc = 0 :=
  bound_tests_agree_on_bytes (some buffer_3) [0, 0] 8 2 (by decide) (by decide)

/-! ## Dump -/

theorem dump_from_append (l1 : List uint8_t) : ∀ (i : Nat) (l2 : List uint8_t),
    dump_from i (l1 ++ l2) = dump_from i l1 ++ dump_from (i + l1.length) l2 := by
  induction l1 with
  | nil => intro i l2; simp [dump_from]
  | cons byte rest ih =>
    intro i l2
    have harith : i + (byte :: rest).length = i + 1 + rest.length := by
      rw [List.length_cons]
      omega
    rw [List.cons_append, harith]
    simp only [dump_from]
    rw [ih (i + 1) l2]
    simp only [List.append_assoc]

/-- The loop of `buffer_dump`, round by round, writes the text of the bytes it
has met. -/
theorem dump_loop_eq (b : buffer_t) (s : List uint8_t) (hs : b.data = some s) :
    ∀ i, i ≤ s.length → dump_loop b i = some (dump_from 0 (s.take i)) := by
  intro i
  induction i with
  | zero => intro _; simp [dump_loop, dump_from]
  | succ i ih =>
    intro hi
    have hlt : i < s.length := by omega
    have hload : load b i = some s[i] := by
      simp only [load, hs, List.getElem?_eq_getElem hlt]
    have htake : s.take (i + 1) = s.take i ++ [s[i]] := by
      rw [List.take_succ, List.getElem?_eq_getElem hlt]
      rfl
    have hlen : (s.take i).length = i := by
      rw [List.length_take]
      omega
    simp only [dump_loop, ih (by omega), hload]
    rw [htake, dump_from_append, hlen, Nat.zero_add]
    simp only [dump_from, List.append_nil, List.append_assoc]

/-- Inside a row: from a round that is not the first of its row, bytes that
fit the row are written one behind the other, and the newline follows when
they fill the row. -/
theorem dump_from_inside_row (l : List uint8_t) : ∀ i, i % INDENT_BREAK ≠ 0 →
    i % INDENT_BREAK + l.length ≤ INDENT_BREAK →
    dump_from i l = l.flatMap hex_byte
      ++ (if i % INDENT_BREAK + l.length = INDENT_BREAK then "\n".toList else []) := by
  induction l with
  | nil =>
    intro i _ _
    have hlt : i % INDENT_BREAK < INDENT_BREAK := Nat.mod_lt _ (by decide)
    have hne : ¬ i % INDENT_BREAK + ([] : List uint8_t).length = INDENT_BREAK := by
      simp only [List.length_nil, Nat.add_zero]
      omega
    rw [if_neg hne]
    rfl
  | cons byte rest ih =>
    intro i hne hfit
    simp only [INDENT_BREAK, List.length_cons] at hne hfit ih ⊢
    simp only [dump_from, INDENT_BREAK, List.flatMap_cons, if_neg hne, List.nil_append,
      List.append_assoc]
    by_cases hlast : i % 20 = 19
    · have hrest : rest = [] := List.length_eq_zero.mp (by omega)
      subst hrest
      simp [hlast, dump_from]
    · have hnext : (i + 1) % 20 = i % 20 + 1 := by omega
      have h19 : ¬ (i % 20 = 20 - 1) := by omega
      have hiff : (i % 20 + 1 + rest.length = 20) ↔ (i % 20 + (rest.length + 1) = 20) := by
        omega
      rw [ih (i + 1) (by omega) (by omega)]
      simp only [if_neg h19, hnext, hiff, List.nil_append]

/-- A row: from the first round of a row, up to `INDENT_BREAK` bytes are
written as one row. -/
theorem dump_from_row (l : List uint8_t) (i : Nat) (hi : i % INDENT_BREAK = 0) (hne : l ≠ [])
    (hfit : l.length ≤ INDENT_BREAK) : dump_from i l = row_text l := by
  cases l with
  | nil => exact absurd rfl hne
  | cons byte rest =>
    simp only [INDENT_BREAK, List.length_cons] at hi hfit
    have hnext : (i + 1) % INDENT_BREAK = 1 := by
      simp only [INDENT_BREAK]
      omega
    have hinside := dump_from_inside_row rest (i + 1) (by rw [hnext]; decide)
      (by rw [hnext]; simp only [INDENT_BREAK]; omega)
    rw [hnext] at hinside
    have hiff : (1 + rest.length = INDENT_BREAK) ↔ (rest.length + 1 = INDENT_BREAK) := by
      omega
    simp only [dump_from, row_text, hinside, INDENT_BREAK, hi, List.flatMap_cons,
      List.length_cons, if_true, List.append_assoc]
    rw [if_neg (by decide)]
    simp only [INDENT_BREAK] at hiff
    simp only [List.nil_append, hiff]

theorem rows_fuel_nil (fuel : Nat) : rows_fuel fuel [] = [] := by
  cases fuel <;> rfl

/-- The loop writes the rows: from the first round of a row on, the text of
the bytes is the text of their rows. -/
theorem dump_from_rows (fuel : Nat) : ∀ (l : List uint8_t) (i : Nat), l.length ≤ fuel →
    i % INDENT_BREAK = 0 → dump_from i l = (rows_fuel fuel l).flatMap row_text := by
  induction fuel with
  | zero =>
    intro l i hl _
    have : l = [] := List.length_eq_zero.mp (by omega)
    subst this
    rfl
  | succ fuel ih =>
    intro l i hl hi
    cases l with
    | nil => rfl
    | cons byte rest =>
      have hsplit : byte :: rest
          = (byte :: rest).take INDENT_BREAK ++ (byte :: rest).drop INDENT_BREAK :=
        (List.take_append_drop _ _).symm
      have hrow := dump_from_row ((byte :: rest).take INDENT_BREAK) i hi
        (by simp [INDENT_BREAK]) (by rw [List.length_take]; omega)
      simp only [rows_fuel, List.flatMap_cons]
      rw [← hrow]
      conv_lhs => rw [hsplit]
      rw [dump_from_append]
      congr 1
      by_cases hshort : (byte :: rest).length ≤ INDENT_BREAK
      · rw [List.drop_eq_nil_of_le hshort, rows_fuel_nil]
        rfl
      · have hlen : ((byte :: rest).take INDENT_BREAK).length = INDENT_BREAK := by
          rw [List.length_take]
          omega
        rw [hlen]
        apply ih
        · rw [List.length_drop]
          simp only [List.length_cons, INDENT_BREAK] at hl ⊢
          omega
        · simp only [INDENT_BREAK] at hi ⊢
          omega

theorem rows_fuel_flatten (fuel : Nat) : ∀ l : List uint8_t, l.length ≤ fuel →
    (rows_fuel fuel l).flatten = l := by
  induction fuel with
  | zero =>
    intro l hl
    have : l = [] := List.length_eq_zero.mp (by omega)
    subst this
    rfl
  | succ fuel ih =>
    intro l hl
    cases l with
    | nil => rfl
    | cons byte rest =>
      simp only [rows_fuel, List.flatten_cons]
      rw [ih _ (by
        rw [List.length_drop]
        simp only [List.length_cons, INDENT_BREAK] at hl ⊢
        omega)]
      exact List.take_append_drop _ _

theorem rows_fuel_length (fuel : Nat) : ∀ l : List uint8_t, ∀ row ∈ rows_fuel fuel l,
    1 ≤ row.length ∧ row.length ≤ INDENT_BREAK := by
  induction fuel with
  | zero => intro l row h; simp [rows_fuel] at h
  | succ fuel ih =>
    intro l row h
    cases l with
    | nil => simp [rows_fuel] at h
    | cons byte rest =>
      simp only [rows_fuel, List.mem_cons] at h
      cases h with
      | inl h =>
        subst h
        rw [List.length_take]
        simp only [List.length_cons, INDENT_BREAK]
        omega
      | inr h => exact ih _ row h

theorem rows_fuel_full (fuel : Nat) : ∀ (l : List uint8_t) (k : Nat),
    k + 1 < (rows_fuel fuel l).length →
    ((rows_fuel fuel l)[k]?).map List.length = some INDENT_BREAK := by
  induction fuel with
  | zero => intro l k h; simp [rows_fuel] at h
  | succ fuel ih =>
    intro l k h
    cases l with
    | nil => simp [rows_fuel] at h
    | cons byte rest =>
      simp only [rows_fuel, List.length_cons] at h ⊢
      cases k with
      | zero =>
        have hmore : (byte :: rest).drop INDENT_BREAK ≠ [] := by
          intro hnil
          rw [hnil, rows_fuel_nil] at h
          simp at h
        have hlong : INDENT_BREAK < (byte :: rest).length := by
          by_contra hle
          exact hmore (List.drop_eq_nil_of_le (by omega))
        simp only [List.getElem?_cons_zero, Option.map_some', List.length_take]
        congr 1
        omega
      | succ k =>
        rw [List.getElem?_cons_succ]
        exact ih _ k (by omega)

theorem hex_digit_lower : ∀ d : Fin 16, Nat.digitChar d.val ∈ "0123456789abcdef".toList := by
  decide

theorem hex_byte_no_newline (byte : uint8_t) : '\n' ∉ hex_byte byte := by
  have hhigh : byte.val / 16 < 16 := by omega
  have hlow : byte.val % 16 < 16 := Nat.mod_lt _ (by decide)
  have h1 := hex_digit_lower ⟨byte.val / 16, hhigh⟩
  have h2 := hex_digit_lower ⟨byte.val % 16, hlow⟩
  have hnot : '\n' ∉ "0123456789abcdef".toList := by decide
  intro hmem
  simp only [hex_byte, List.mem_cons, List.mem_singleton, List.not_mem_nil, or_false] at hmem
  rcases hmem with h | h | h | h | h
  · exact absurd h (by decide)
  · exact absurd h (by decide)
  · exact hnot (h ▸ h1)
  · exact hnot (h ▸ h2)
  · exact absurd h (by decide)

/-- The text `buffer_dump` writes to a stream that is there, for a buffer
whose storage holds its `size_bytes` bytes. -/
theorem buffer_dump_sink (b : buffer_t) (s : List uint8_t) (written out : List Char)
    (hs : b.data = some s) (hlen : b.size_bytes ≤ s.length) :
    buffer_dump (some b) (some written) out
      = { buffer := some b
          sink := some (written ++ dump_text b.size_bytes (s.take b.size_bytes))
          stdout_text := out } := by
  have hloop := dump_loop_eq b s hs b.size_bytes hlen
  have hrows := dump_from_rows (s.take b.size_bytes).length (s.take b.size_bytes) 0
    (Nat.le_refl _) (by decide)
  simp only [buffer_dump, hloop, hrows, dump_text, rows, List.append_assoc]

/-- C17: for a buffer whose storage holds its `size_bytes` bytes and a stream
that is there, `buffer_dump` leaves the buffer as it was and appends to the
stream the opening marker, the length in decimal, and the bytes in storage
order cut into rows: the rows put together are the bytes, every row has
between 1 and 20 values, every row but the last has exactly 20, a row is
written on one line (eight blanks and its values, no newline between them, the
newline behind a row of 20), and every value is `0x`, two lowercase hexadecimal
digits and a blank. -/
theorem buffer_dump_renders (b : buffer_t) (s : List uint8_t) (written out : List Char)
    (hs : b.data = some s) (hlen : b.size_bytes ≤ s.length) :
    buffer_dump (some b) (some written) out
      = { buffer := some b
          sink := some (written ++ dump_text b.size_bytes (s.take b.size_bytes))
          stdout_text := out } ∧
    (rows (s.take b.size_bytes)).flatten = s.take b.size_bytes ∧
    (∀ row ∈ rows (s.take b.size_bytes), 1 ≤ row.length ∧ row.length ≤ 20) ∧
    (∀ k, k + 1 < (rows (s.take b.size_bytes)).length →
      ((rows (s.take b.size_bytes))[k]?).map List.length = some 20) ∧
    (∀ row : List uint8_t, '\n' ∉ "        ".toList ++ row.flatMap hex_byte) ∧
    (∀ byte : uint8_t, ∃ high low, hex_byte byte = ['0', 'x', high, low, ' '] ∧
      high ∈ "0123456789abcdef".toList ∧ low ∈ "0123456789abcdef".toList) := by
  refine ⟨buffer_dump_sink b s written out hs hlen, rows_fuel_flatten _ _ (Nat.le_refl _),
    rows_fuel_length _ _, rows_fuel_full _ _, ?_, ?_⟩
  · intro row hmem
    rw [List.mem_append] at hmem
    cases hmem with
    | inl h => exact absurd h (by decide)
    | inr h =>
      rw [List.mem_flatMap] at h
      obtain ⟨byte, -, hbyte⟩ := h
      exact hex_byte_no_newline byte hbyte
  · intro byte
    have hhigh : byte.val / 16 < 16 := by omega
    have hlow : byte.val % 16 < 16 := Nat.mod_lt _ (by decide)
    exact ⟨_, _, rfl, hex_digit_lower ⟨byte.val / 16, hhigh⟩, hex_digit_lower ⟨byte.val % 16, hlow⟩⟩

/-- C17 witness: the dump of the bytes `0x12, 0x34`. -/
theorem buffer_dump_renders_witness :
    buffer_dump (some buffer_1234) (some []) []
      = { buffer := some buffer_1234
          sink := some ("<Buffer>\n    <Length>2<Length>\n    <Bytes>\n        0x12 0x34 \n    </Bytes>\n</Buffer>\n".toList)
          stdout_text := [] } :=
  (buffer_dump_renders buffer_1234 [0x12, 0x34] [] [] rfl (by decide)).1.trans (by decide)

/-- C18 (the code without a sink): `file` is set to `to` before `to` is
replaced by `stdout`, and every `fprintf` writes to `file`; so with `to` absent
nothing is written to the standard output stream, whose text stays as it was,
and there is no stream that holds the rendering. -/
theorem buffer_dump_without_sink (b : buffer_t) (out : List Char) :
    buffer_dump (some b) none out = { buffer := some b, sink := none, stdout_text := out } ∧
    (buffer_dump (some buffer_1234) none []).stdout_text = [] ∧
    (buffer_dump (some buffer_1234) (some []) []).sink
      = some ("<Buffer>\n    <Length>2<Length>\n    <Bytes>\n        0x12 0x34 \n    </Bytes>\n</Buffer>\n".toList) := by
  refine ⟨rfl, rfl, by decide⟩

/-- C20 (the code at the failing input): for the 19 bytes `0x01 .. 0x13` the
loop ends with `i = 19`, the test `i % 20 != 19` fails and no newline is
written, so the blanks of the closing marker follow the last value `0x13 ` on
the same line. -/
theorem buffer_dump_marker_on_byte_line :
    (buffer_dump (some buffer_19) (some []) []).sink
      = some ("<Buffer>\n    <Length>19<Length>\n    <Bytes>\n        0x01 0x02 0x03 0x04 0x05 0x06 0x07 0x08 0x09 0x0a 0x0b 0x0c 0x0d 0x0e 0x0f 0x10 0x11 0x12 0x13     </Bytes>\n</Buffer>\n".toList) := by
  rfl

end Buffers
